import Mathlib

/-!
Verification of the graph-connectivity toolkit in
`OpenPNM/Utilities/__graphTheoAlgs__.py`: the `quick_union_algs` class
(a union-find engine over a parents array, with plain, path-halving and
full path-compression root searches, quick union and weighted quick
union) and the `depth_first_search_alg` class (a recursive
connected-component labeler over an adjacency list).

The parents array `self.id_updated` is modelled as a `List Nat` whose
index is the vertex and whose entry is the parent.  Scalar ids passed to
the scalar entry points are modelled as singleton batches, which have
identical numpy semantics.  numpy fancy-indexed assignment
`a[pos] = vals` is modelled by `scatter` (sequential writes, so a
repeated position keeps the last value, matching numpy).  The `while`
loops of the source are modelled with an explicit fuel argument fixed at
the array length (or length + 1); every theorem below that relies on a
loop result proves that this fuel suffices on the stated inputs.
-/

/-- Parent of vertex `v` in parents array `s` (`self.id_updated[v]`).
Out-of-range reads default to `v` itself; all theorems restrict
attention to in-range vertices. -/
def par (s : List Nat) (v : Nat) : Nat := s.getD v v

/-- `k`-fold parent: follow parent links `k` times. -/
def iterP (s : List Nat) : Nat → Nat → Nat
  | 0, v => v
  | k + 1, v => iterP s k (par s v)

/-- A root is a self-parented vertex. -/
def isRoot (s : List Nat) (v : Nat) : Prop := par s v = v

instance (s : List Nat) (v : Nat) : Decidable (isRoot s v) := by
  unfold isRoot; infer_instance

/-- Well-formed parents array: every in-range vertex has an in-range
parent. -/
def Wf (s : List Nat) : Prop := ∀ v < s.length, par s v < s.length

instance (s : List Nat) : Decidable (Wf s) := by
  unfold Wf; infer_instance

/-- The root of `v`: follow parent links `length` times (in a valid
forest the walk has reached a self-parented vertex by then and stays
there). -/
def rootOf (s : List Nat) (v : Nat) : Nat := iterP s s.length v

/-- The forest invariant of the ParentMapping: parents are in range and
following parent links from any vertex reaches a self-parented root
(within `length` steps, which is all a finite forest allows). -/
def ValidForest (s : List Nat) : Prop :=
  Wf s ∧ ∀ v < s.length, isRoot s (rootOf s v)

instance (s : List Nat) : Decidable (ValidForest s) := by
  unfold ValidForest; infer_instance

/-- Number of parent-link steps from `v` to the first self-parented
vertex, computed with fuel `f` (returns `≤ f`). -/
def stepsToRoot (s : List Nat) : Nat → Nat → Nat
  | 0, _ => 0
  | f + 1, v => if par s v = v then 0 else stepsToRoot s f (par s v) + 1

/-- Depth of `v`: distance to its root, with fuel `length`. -/
def dd (s : List Nat) (v : Nat) : Nat := stepsToRoot s s.length v

/-- The 11-vertex example forest used throughout the source's
docstrings: `sp.array([0, 0, 0, 3, 3, 3, 9, 7, 9, 4, 8])`. -/
def exGraph : List Nat := [0, 0, 0, 3, 3, 3, 9, 7, 9, 4, 8]

example : ValidForest exGraph := by decide
example : rootOf exGraph 10 = 3 ∧ rootOf exGraph 2 = 0 ∧ rootOf exGraph 7 = 7 := by decide

theorem iterP_add (s : List Nat) (a b v : Nat) :
    iterP s (a + b) v = iterP s a (iterP s b v) := by
  induction b generalizing v with
  | zero => rfl
  | succ b ih =>
    have : a + (b + 1) = (a + b) + 1 := by omega
    rw [this]
    simp only [iterP]
    exact ih (par s v)

theorem iterP_succ_out (s : List Nat) (k v : Nat) :
    iterP s (k + 1) v = par s (iterP s k v) := by
  induction k generalizing v with
  | zero => rfl
  | succ k ih =>
    simp only [iterP]
    exact ih (par s v)

theorem isRoot_iterP_fix (s : List Nat) (v : Nat) (h : isRoot s v) (k : Nat) :
    iterP s k v = v := by
  induction k with
  | zero => rfl
  | succ k ih => rw [iterP_succ_out, ih]; exact h

theorem isRoot_iterP_le (s : List Nat) (v a b : Nat) (hab : a ≤ b)
    (h : isRoot s (iterP s a v)) :
    iterP s b v = iterP s a v ∧ isRoot s (iterP s b v) := by
  obtain ⟨c, rfl⟩ := Nat.exists_eq_add_of_le hab
  rw [Nat.add_comm a c, iterP_add]
  exact ⟨isRoot_iterP_fix s _ h c, by rw [isRoot_iterP_fix s _ h c]; exact h⟩

theorem iterP_lt (s : List Nat) (hw : Wf s) (k v : Nat) (hv : v < s.length) :
    iterP s k v < s.length := by
  induction k generalizing v with
  | zero => exact hv
  | succ k ih => exact ih (par s v) (hw v hv)

theorem rootOf_isRoot (s : List Nat) (hs : ValidForest s) (v : Nat)
    (hv : v < s.length) : isRoot s (rootOf s v) :=
  hs.2 v hv

theorem rootOf_of_isRoot (s : List Nat) (v : Nat) (h : isRoot s v) :
    rootOf s v = v :=
  isRoot_iterP_fix s v h s.length

theorem rootOf_par (s : List Nat) (hs : ValidForest s) (v : Nat)
    (hv : v < s.length) : rootOf s (par s v) = rootOf s v := by
  have h1 : iterP s (s.length + 1) v = iterP s s.length (par s v) := by
    simp only [iterP]
  have h2 : iterP s (s.length + 1) v = par s (iterP s s.length v) :=
    iterP_succ_out s s.length v
  have h3 : par s (rootOf s v) = rootOf s v := hs.2 v hv
  unfold rootOf
  rw [← h1, h2]
  exact h3

theorem rootOf_iterP (s : List Nat) (hs : ValidForest s) (k v : Nat)
    (hv : v < s.length) : rootOf s (iterP s k v) = rootOf s v := by
  induction k generalizing v with
  | zero => rfl
  | succ k ih =>
    simp only [iterP]
    rw [ih (par s v) (hs.1 v hv)]
    exact rootOf_par s hs v hv

theorem stepsToRoot_le (s : List Nat) (f v : Nat) : stepsToRoot s f v ≤ f := by
  induction f generalizing v with
  | zero => exact Nat.le_refl 0
  | succ f ih =>
    simp only [stepsToRoot]
    split
    · exact Nat.zero_le _
    · exact Nat.succ_le_succ (ih (par s v))

theorem stepsToRoot_of_isRoot (s : List Nat) (f v : Nat) (h : isRoot s v) :
    stepsToRoot s f v = 0 := by
  cases f with
  | zero => rfl
  | succ f =>
    unfold isRoot at h
    simp only [stepsToRoot, if_pos h]

theorem isRoot_iterP_stepsToRoot (s : List Nat) (f v : Nat)
    (h : isRoot s (iterP s f v)) :
    isRoot s (iterP s (stepsToRoot s f v) v) := by
  induction f generalizing v with
  | zero => exact h
  | succ f ih =>
    simp only [stepsToRoot]
    split
    · exact (by assumption : isRoot s (iterP s 0 v))
    · have h' : isRoot s (iterP s f (par s v)) := h
      have := ih (par s v) h'
      simpa [iterP] using this

theorem stepsToRoot_fuel (s : List Nat) (f g v : Nat)
    (h : isRoot s (iterP s f v)) (hfg : f ≤ g) :
    stepsToRoot s g v = stepsToRoot s f v := by
  induction f generalizing v g with
  | zero =>
    rw [stepsToRoot_of_isRoot s g v h, stepsToRoot_of_isRoot s 0 v h]
  | succ f ih =>
    by_cases hr : par s v = v
    · rw [stepsToRoot_of_isRoot s g v hr, stepsToRoot_of_isRoot s (f + 1) v hr]
    · cases g with
      | zero => omega
      | succ g =>
        simp only [stepsToRoot, if_neg hr]
        have h' : isRoot s (iterP s f (par s v)) := h
        rw [ih g (par s v) h' (Nat.le_of_succ_le_succ hfg)]

theorem stepsToRoot_min (s : List Nat) (f k v : Nat)
    (h : isRoot s (iterP s k v)) (hkf : k ≤ f) :
    stepsToRoot s f v ≤ k := by
  induction k generalizing v f with
  | zero =>
    rw [stepsToRoot_of_isRoot s f v h]
  | succ k ih =>
    by_cases hr : par s v = v
    · rw [stepsToRoot_of_isRoot s f v hr]; exact Nat.zero_le _
    · cases f with
      | zero => omega
      | succ f =>
        simp only [stepsToRoot, if_neg hr]
        have h' : isRoot s (iterP s k (par s v)) := h
        exact Nat.succ_le_succ (ih f (par s v) h' (Nat.le_of_succ_le_succ hkf))

theorem dd_le (s : List Nat) (v : Nat) : dd s v ≤ s.length :=
  stepsToRoot_le s s.length v

theorem dd_of_isRoot (s : List Nat) (v : Nat) (h : isRoot s v) : dd s v = 0 :=
  stepsToRoot_of_isRoot s s.length v h

theorem isRoot_iterP_dd (s : List Nat) (hs : ValidForest s) (v : Nat)
    (hv : v < s.length) : isRoot s (iterP s (dd s v) v) :=
  isRoot_iterP_stepsToRoot s s.length v (hs.2 v hv)

theorem dd_pos_of_not_isRoot (s : List Nat) (v : Nat) (hv : v < s.length)
    (h : ¬ isRoot s v) : 0 < dd s v := by
  unfold isRoot at h
  unfold dd
  cases hl : s.length with
  | zero => omega
  | succ n => simp only [stepsToRoot, if_neg h]; omega

theorem dd_par (s : List Nat) (hs : ValidForest s) (v : Nat)
    (hv : v < s.length) (h : ¬ isRoot s v) :
    dd s v = dd s (par s v) + 1 := by
  have hlen : 0 < s.length := by omega
  obtain ⟨n, hn⟩ : ∃ n, s.length = n + 1 := ⟨s.length - 1, by omega⟩
  have hroot : isRoot s (iterP s n (par s v)) := by
    have h2 := hs.2 v hv
    unfold rootOf at h2
    rw [hn] at h2
    exact h2
  unfold isRoot at h
  unfold dd
  conv_lhs => rw [hn]
  simp only [stepsToRoot, if_neg h]
  rw [stepsToRoot_fuel s n s.length (par s v) hroot (by omega)]

theorem dd_iterP_le (s : List Nat) (hs : ValidForest s) (k v : Nat)
    (hv : v < s.length) (hk : 1 ≤ k) (h : ¬ isRoot s v) :
    dd s (iterP s k v) ≤ dd s v - 1 := by
  induction k generalizing v with
  | zero => omega
  | succ k ih =>
    simp only [iterP]
    rcases Nat.eq_zero_or_pos k with hk0 | hkpos
    · subst hk0
      simp only [iterP]
      rw [dd_par s hs v hv h]
      omega
    · by_cases hpr : isRoot s (par s v)
      · have : iterP s k (par s v) = par s v := isRoot_iterP_fix s _ hpr k
        rw [this, dd_of_isRoot s _ hpr]
        omega
      · have hih := ih (par s v) (hs.1 v hv) hkpos hpr
        rw [dd_par s hs v hv h]
        omega

theorem dd_iterP_exact (s : List Nat) (hs : ValidForest s) (k v : Nat)
    (hv : v < s.length) (hk : k ≤ dd s v) :
    dd s (iterP s k v) = dd s v - k := by
  induction k generalizing v with
  | zero => rfl
  | succ k ih =>
    have h : ¬ isRoot s v := by
      intro hr
      rw [dd_of_isRoot s v hr] at hk
      omega
    simp only [iterP]
    rw [ih (par s v) (hs.1 v hv)
      (by rw [dd_par s hs v hv h] at hk; omega)]
    rw [dd_par s hs v hv h]
    omega

/-- In a valid forest every depth is strictly below the vertex count:
the vertices on a root path are pairwise distinct. -/
theorem dd_lt (s : List Nat) (hs : ValidForest s) (v : Nat)
    (hv : v < s.length) : dd s v < s.length := by
  have hinj : Function.Injective
      (fun i : Fin (dd s v + 1) => (⟨iterP s i.1 v, iterP_lt s hs.1 i.1 v hv⟩ : Fin s.length)) := by
    intro i j hij
    have hdi : dd s (iterP s i.1 v) = dd s v - i.1 :=
      dd_iterP_exact s hs i.1 v hv (by omega)
    have hdj : dd s (iterP s j.1 v) = dd s v - j.1 :=
      dd_iterP_exact s hs j.1 v hv (by omega)
    have heq : iterP s i.1 v = iterP s j.1 v := congrArg Fin.val hij
    rw [heq] at hdi
    have hi := i.2
    have hj := j.2
    apply Fin.ext
    omega
  have := Fintype.card_le_of_injective _ hinj
  simp only [Fintype.card_fin] at this
  omega

/-- A ranking function that strictly decreases along non-root parent
links and is bounded by the length certifies the forest invariant. -/
theorem validForest_of_rank (t : List Nat) (hw : Wf t) (rk : Nat → Nat)
    (hb : ∀ v < t.length, rk v ≤ t.length)
    (hr : ∀ v < t.length, ¬ isRoot t v → rk (par t v) < rk v) :
    ValidForest t := by
  refine ⟨hw, ?_⟩
  have key : ∀ n v, v < t.length → rk v ≤ n → isRoot t (iterP t (rk v) v) := by
    intro n
    induction n with
    | zero =>
      intro v hv h0
      by_cases hroot : isRoot t v
      · rw [Nat.le_zero.mp h0]; exact hroot
      · exact absurd (hr v hv hroot) (by omega)
    | succ n ih =>
      intro v hv hle
      by_cases hroot : isRoot t v
      · exact (isRoot_iterP_le t v 0 (rk v) (Nat.zero_le _) hroot).2
      · have hpar := hr v hv hroot
        have hp : par t v < t.length := hw v hv
        have := ih (par t v) hp (by omega)
        have h1 : isRoot t (iterP t (rk (par t v) + 1) v) := by
          have : iterP t (rk (par t v) + 1) v = iterP t (rk (par t v)) (par t v) := rfl
          rw [this]
          exact ih (par t v) hp (by omega)
        exact (isRoot_iterP_le t v (rk (par t v) + 1) (rk v) (by omega) h1).2
  intro v hv
  have h1 := key t.length v hv (hb v hv)
  exact (isRoot_iterP_le t v (rk v) t.length (hb v hv) h1).2

theorem par_set (s : List Nat) (i a v : Nat) :
    par (s.set i a) v = if i = v ∧ i < s.length then a else par s v := by
  unfold par
  rw [List.getD_eq_getElem?_getD, List.getD_eq_getElem?_getD, List.getElem?_set]
  by_cases hiv : i = v
  · subst hiv
    by_cases hil : i < s.length
    · simp [hil]
    · simp [hil, List.getElem?_eq_none (by omega : s.length ≤ i)]
  · simp [hiv]

/-- numpy fancy-indexed assignment `s[pos] = vals`: sequential writes,
so a repeated position keeps the value of its last occurrence. -/
def scatter (s : List Nat) : List Nat → List Nat → List Nat
  | p :: ps, w :: ws => scatter (s.set p w) ps ws
  | _, _ => s

theorem scatter_length (s ps ws : List Nat) :
    (scatter s ps ws).length = s.length := by
  induction ps generalizing s ws with
  | nil => cases ws <;> rfl
  | cons p ps ih =>
    cases ws with
    | nil => rfl
    | cons w ws => simp only [scatter]; rw [ih]; exact List.length_set s p w

theorem scatter_par_not_mem (s ps ws : List Nat) (v : Nat) (hv : v ∉ ps) :
    par (scatter s ps ws) v = par s v := by
  induction ps generalizing s ws with
  | nil => cases ws <;> rfl
  | cons p ps ih =>
    cases ws with
    | nil => rfl
    | cons w ws =>
      simp only [scatter]
      rw [ih (s.set p w) ws (fun h => hv (List.mem_cons_of_mem p h))]
      rw [par_set]
      have : p ≠ v := fun h => hv (h ▸ List.mem_cons_self p ps)
      simp [this]

theorem scatter_par_or (s ps ws : List Nat) (v : Nat) :
    par (scatter s ps ws) v = par s v ∨
      (v, par (scatter s ps ws) v) ∈ ps.zip ws := by
  induction ps generalizing s ws with
  | nil => cases ws <;> exact Or.inl rfl
  | cons p ps ih =>
    cases ws with
    | nil => exact Or.inl rfl
    | cons w ws =>
      simp only [scatter]
      rcases ih (s.set p w) ws with h | h
      · rw [h, par_set]
        by_cases hc : p = v ∧ p < s.length
        · right
          rw [if_pos hc]
          simp only [List.zip_cons_cons, List.mem_cons]
          left
          rw [hc.1]
        · left; rw [if_neg hc]
      · right
        simp only [List.zip_cons_cons]
        exact List.mem_cons_of_mem _ h

theorem scatter_par_fun (s : List Nat) (f : Nat → Nat) (ps ws : List Nat)
    (hlen : ws.length = ps.length)
    (hf : ∀ q ∈ ps.zip ws, q.2 = f q.1) (v : Nat) (hv : v ∈ ps)
    (hvl : v < s.length) :
    par (scatter s ps ws) v = f v := by
  induction ps generalizing s ws with
  | nil => exact absurd hv (List.not_mem_nil v)
  | cons p ps ih =>
    cases ws with
    | nil => simp at hlen
    | cons w ws =>
      simp only [scatter]
      have hw : w = f p := hf (p, w) (by simp)
      have hlen' : ws.length = ps.length := by simpa using hlen
      have hf' : ∀ q ∈ ps.zip ws, q.2 = f q.1 := by
        intro q hq
        exact hf q (by simp only [List.zip_cons_cons]; exact List.mem_cons_of_mem _ hq)
      by_cases hmem : v ∈ ps
      · exact ih (s.set p w) ws hlen' hf' hmem (by rw [List.length_set]; exact hvl)
      · have hvp : v = p := by
          rcases List.mem_cons.mp hv with h | h
          · exact h
          · exact absurd h hmem
        subst hvp
        rw [scatter_par_not_mem _ _ _ _ hmem, par_set]
        simp [hvl, hw]

theorem set_par_self (s : List Nat) (i : Nat) :
    s.set i (par s i) = s := by
  induction s generalizing i with
  | nil => rfl
  | cons x t ih =>
    cases i with
    | zero => rfl
    | succ i =>
      show x :: t.set i (par (x :: t) (i + 1)) = x :: t
      by_cases hil : i < t.length
      · have : par (x :: t) (i + 1) = par t i := by
          unfold par
          rw [List.getD_eq_getElem?_getD, List.getD_eq_getElem?_getD]
          have h1 : (x :: t)[i + 1]? = t[i]? := List.getElem?_cons_succ
          rw [h1, List.getElem?_eq_getElem hil]
          rfl
        rw [this, ih]
      · rw [List.set_eq_of_length_le (by simpa using hil)]

theorem scatter_noop (s : List Nat) (ps ws : List Nat)
    (h : ∀ q ∈ ps.zip ws, par s q.1 = q.2) :
    scatter s ps ws = s := by
  induction ps generalizing ws with
  | nil => cases ws <;> rfl
  | cons p ps ih =>
    cases ws with
    | nil => rfl
    | cons w ws =>
      simp only [scatter]
      have hw : par s p = w := h (p, w) (by simp)
      rw [← hw, set_par_self]
      exact ih ws (fun q hq => h q (by
        simp only [List.zip_cons_cons]
        exact List.mem_cons_of_mem _ hq))

/-- Ancestor rewrite: if every parent pointer of `t` is an ancestor (in
`s`) of its vertex, and `t` creates no new self-loop, then `t` is again
a valid forest with the same roots and no larger depths.  Path
compression steps are of this shape. -/
theorem anc (s t : List Nat) (hs : ValidForest s) (hlen : t.length = s.length)
    (h1 : ∀ v < s.length, ∃ k, par t v = iterP s k v)
    (h2 : ∀ v < s.length, par t v = v → par s v = v) :
    ValidForest t ∧ (∀ v < s.length, rootOf t v = rootOf s v) ∧
      (∀ v < s.length, dd t v ≤ dd s v) := by
  have hw : Wf t := by
    intro v hv
    rw [hlen] at hv ⊢
    obtain ⟨k, hk⟩ := h1 v hv
    rw [hk]
    exact iterP_lt s hs.1 k v hv
  have hstep : ∀ v < s.length, ¬ isRoot t v →
      ¬ isRoot s v ∧ dd s (par t v) < dd s v := by
    intro v hv hnr
    obtain ⟨k, hk⟩ := h1 v hv
    have hk1 : 1 ≤ k := by
      rcases Nat.eq_zero_or_pos k with h0 | h
      · subst h0; exact absurd hk hnr
      · exact h
    have hnrs : ¬ isRoot s v := by
      intro hrs
      exact hnr (show par t v = v by rw [hk, isRoot_iterP_fix s v hrs k])
    refine ⟨hnrs, ?_⟩
    rw [hk]
    have := dd_iterP_le s hs k v hv hk1 hnrs
    have := dd_pos_of_not_isRoot s v hv hnrs
    omega
  have hvalid : ValidForest t := by
    apply validForest_of_rank t hw (dd s)
    · intro v hv
      rw [hlen]
      exact dd_le s v
    · intro v hv hnr
      rw [hlen] at hv
      exact (hstep v hv hnr).2
  have hddle : ∀ v < s.length, dd t v ≤ dd s v := by
    have key : ∀ n, ∀ v, v < s.length → dd s v ≤ n →
        isRoot t (iterP t (dd s v) v) := by
      intro n
      induction n with
      | zero =>
        intro v hv h0
        by_cases hr : isRoot t v
        · exact (isRoot_iterP_le t v 0 (dd s v) (Nat.zero_le _) hr).2
        · have := (hstep v hv hr).2
          omega
      | succ n ih =>
        intro v hv hle
        by_cases hr : isRoot t v
        · exact (isRoot_iterP_le t v 0 (dd s v) (Nat.zero_le _) hr).2
        · obtain ⟨hnrs, hlt⟩ := hstep v hv hr
          have hp : par t v < s.length := by
            have := hw v (by omega)
            rw [hlen] at this
            exact this
          have hih := ih (par t v) hp (by omega)
          have hd1 : 1 ≤ dd s v := by
            have := dd_pos_of_not_isRoot s v hv hnrs
            omega
          have hpersist := (isRoot_iterP_le t (par t v) (dd s (par t v))
            (dd s v - 1) (by omega) hih).2
          have hiter : iterP t (dd s v) v = iterP t (dd s v - 1) (par t v) := by
            have : dd s v = (dd s v - 1) + 1 := by omega
            rw [this]
            rfl
          rw [hiter]
          exact hpersist
    intro v hv
    have hroot := key (dd s v) v hv (Nat.le_refl _)
    unfold dd
    apply stepsToRoot_min t t.length (dd s v) v hroot
    rw [hlen]
    exact dd_le s v
  refine ⟨hvalid, ?_, hddle⟩
  have key : ∀ n, ∀ v, v < s.length → dd s v ≤ n → rootOf t v = rootOf s v := by
    intro n
    induction n with
    | zero =>
      intro v hv h0
      by_cases hr : isRoot t v
      · rw [rootOf_of_isRoot t v hr, rootOf_of_isRoot s v (h2 v hv hr)]
      · have := (hstep v hv hr).2
        omega
    | succ n ih =>
      intro v hv hle
      by_cases hr : isRoot t v
      · rw [rootOf_of_isRoot t v hr, rootOf_of_isRoot s v (h2 v hv hr)]
      · obtain ⟨hnrs, hlt⟩ := hstep v hv hr
        have hvt : v < t.length := by omega
        have hp : par t v < s.length := by
          have := hw v hvt
          rw [hlen] at this
          exact this
        have h3 := rootOf_par t hvalid v hvt
        rw [← h3]
        rw [ih (par t v) hp (by omega)]
        obtain ⟨k, hk⟩ := h1 v hv
        rw [hk]
        exact rootOf_iterP s hs k v hv
  intro v hv
  exact key (dd s v) v hv (Nat.le_refl _)

/-- Root attach: if `t` differs from `s` only at vertices that are roots
of `s`, and every rewritten root now points at a self-parented vertex of
`t`, then `t` is a valid forest and the new root of any vertex is the
(possibly rewritten) parent of its old root.  Union writes are of this
shape. -/
theorem att (s t : List Nat) (hs : ValidForest s) (hlen : t.length = s.length)
    (hch : ∀ v < s.length, par t v = par s v ∨
      (par s v = v ∧ isRoot t (par t v) ∧ par t v < s.length)) :
    ValidForest t ∧ ∀ v < s.length, rootOf t v = par t (rootOf s v) := by
  have hw : Wf t := by
    intro v hv
    rw [hlen] at hv ⊢
    rcases hch v hv with h | h
    · rw [h]; exact hs.1 v hv
    · exact h.2.2
  have hvalid : ValidForest t := by
    apply validForest_of_rank t hw (fun v => if isRoot t v then 0 else dd s v + 1)
    · intro v hv
      rw [hlen] at hv ⊢
      split
      · exact Nat.zero_le _
      · have := dd_lt s hs v hv
        omega
    · intro v hv hnr
      rw [hlen] at hv
      simp only [if_neg hnr]
      rcases hch v hv with h | h
      · have hnrs : ¬ isRoot s v := by
          intro hrs
          exact hnr (h.trans hrs)
        have hd1 := dd_pos_of_not_isRoot s v hv hnrs
        have hpar := dd_par s hs v hv hnrs
        split
        · omega
        · rw [h, ← hpar]
          omega
      · rw [if_pos h.2.1]
        omega
  refine ⟨hvalid, ?_⟩
  have key : ∀ n, ∀ v, v < s.length → dd s v ≤ n →
      rootOf t v = par t (rootOf s v) := by
    intro n
    induction n with
    | zero =>
      intro v hv h0
      by_cases hrs : isRoot s v
      · rw [rootOf_of_isRoot s v hrs]
        rcases hch v hv with h | h
        · have hrt : isRoot t v := h.trans hrs
          rw [rootOf_of_isRoot t v hrt]
          exact hrt.symm
        · by_cases hjv : par t v = v
          · rw [rootOf_of_isRoot t v hjv]
            exact hjv.symm
          · have hvt : v < t.length := by omega
            rw [← rootOf_par t hvalid v hvt]
            exact rootOf_of_isRoot t (par t v) h.2.1
      · have := dd_pos_of_not_isRoot s v hv hrs
        omega
    | succ n ih =>
      intro v hv hle
      by_cases hrs : isRoot s v
      · rw [rootOf_of_isRoot s v hrs]
        rcases hch v hv with h | h
        · have hrt : isRoot t v := h.trans hrs
          rw [rootOf_of_isRoot t v hrt]
          exact hrt.symm
        · by_cases hjv : par t v = v
          · rw [rootOf_of_isRoot t v hjv]
            exact hjv.symm
          · have hvt : v < t.length := by omega
            rw [← rootOf_par t hvalid v hvt]
            exact rootOf_of_isRoot t (par t v) h.2.1
      · have hch' : par t v = par s v := by
          rcases hch v hv with h | h
          · exact h
          · exact absurd h.1 hrs
        have hvt : v < t.length := by omega
        have hp : par s v < s.length := hs.1 v hv
        have hdp := dd_par s hs v hv hrs
        rw [← rootOf_par t hvalid v hvt, hch']
        rw [ih (par s v) hp (by omega)]
        rw [rootOf_par s hs v hv]
  intro v hv
  exact key (dd s v) v hv (Nat.le_refl _)

/-- The two compression modes accepted by `_root_path_compression` (its
`pc_type` argument) and by `find_root` / the union builders. -/
inductive PCType where
  | path_halving : PCType
  | full_pc : PCType
deriving DecidableEq

/-- Loop of `_root` (no compression): `while sp.any(v_i != id[v_i]):
v_i = id[v_i]`.  All batch elements advance together; elements already
at a root stay put.  Fuel replaces the `while`. -/
def rootLoop (s : List Nat) : Nat → List Nat → List Nat
  | 0, vs => vs
  | f + 1, vs =>
    if vs.all (fun v => par s v == v) then vs
    else rootLoop s f (vs.map (par s))

/-- `_root(v_i)`: batch root lookup without mutation. -/
def root_plain (s : List Nat) (vs : List Nat) : List Nat :=
  rootLoop s s.length vs

/-- Loop of `_root_path_compression` with `pc_type='path_halving'`:
`id[v_j] = id[id[v_j]]` (a fancy-indexed write of each element's
grandparent, gathered before the write) then `v_j = id[v_j]` (gathered
from the updated array). Returns the final state and the roots. -/
def halveLoop : Nat → List Nat → List Nat → List Nat × List Nat
  | 0, s, vs => (s, vs)
  | f + 1, s, vs =>
    if vs.all (fun v => par s v == v) then (s, vs)
    else
      let s1 := scatter s vs (vs.map (fun v => par s (par s v)))
      halveLoop f s1 (vs.map (par s1))

/-- `_root_path_compression(v_i, pc_type='path_halving')`. -/
def root_path_halving (s : List Nat) (vs : List Nat) : List Nat × List Nat :=
  halveLoop s.length s vs

/-- Second loop of `_root_path_compression` with `pc_type='full_pc'`:
`while sp.any(v_i != v_j): v_j_new = id[v_i]; id[v_i] = v_j;
v_i = v_j_new`.  `v_j` (the roots found by the first loop) is fixed;
the state and `v_i` evolve. -/
def fullLoop : Nat → List Nat → List Nat → List Nat → List Nat
  | 0, s, _, _ => s
  | f + 1, s, vi, vj =>
    if vi == vj then s
    else
      let vn := vi.map (par s)
      let s1 := scatter s vi vj
      fullLoop f s1 vn vj

/-- `_root_path_compression(v_i, pc_type='full_pc')`: first locate the
roots without mutation, then rewrite every visited vertex to its root. -/
def root_full_pc (s : List Nat) (vs : List Nat) : List Nat × List Nat :=
  let vj := rootLoop s s.length vs
  (fullLoop s.length s vs vj, vj)

/-- `_root_path_compression` dispatching on `pc_type`. -/
def root_path_compression (s : List Nat) (vs : List Nat) (mode : PCType) :
    List Nat × List Nat :=
  match mode with
  | .path_halving => root_path_halving s vs
  | .full_pc => root_full_pc s vs

/-- `find_root(elements_to_test, path_compression,
path_compression_type)`: the public lookup.  Both branches end with
`self.id_updated[elements_to_test] = <found roots>`. -/
def find_root (s : List Nat) (els : List Nat) (pc : Bool) (mode : PCType) :
    List Nat :=
  if pc then
    let p := root_path_compression s els mode
    scatter p.1 els p.2
  else
    scatter s els (root_plain s els)

/-- Root-finding phase of `build_quick_union`: `i` from `minor`, then
`j` from `main` on the state the first lookup produced. -/
def unionRoots (s minor main : List Nat) (pc : Bool) (mode : PCType) :
    List Nat × List Nat × List Nat :=
  if pc then
    let p := root_path_compression s minor mode
    let q := root_path_compression p.1 main mode
    (q.1, p.2, q.2)
  else (s, root_plain s minor, root_plain s main)

/-- `build_quick_union(minor, main, path_compression,
path_compression_type)`: find both root batches, return unchanged when
`sp.all(i == j)`, otherwise `id[i] = j`. -/
def build_quick_union (s minor main : List Nat) (pc : Bool) (mode : PCType) :
    List Nat :=
  let r := unionRoots s minor main pc mode
  if r.2.1 == r.2.2 then r.1 else scatter r.1 r.2.1 r.2.2

/-- Scalar `_root`, as `build_weighted_quick_union` invokes it.  A numpy
scalar id behaves exactly like a one-element batch. -/
def rootS_plain (s : List Nat) (v : Nat) : Nat := (root_plain s [v]).headD v

/-- Scalar `_root_path_compression` (state, root). -/
def rootS_pc (s : List Nat) (v : Nat) (mode : PCType) : List Nat × Nat :=
  let p := root_path_compression s [v] mode
  (p.1, p.2.headD v)

/-- The `if (path_compression): ... else: ...` root dispatch of
`build_weighted_quick_union`, on a scalar id (state, root). -/
def rootS (s : List Nat) (v : Nat) (pc : Bool) (mode : PCType) :
    List Nat × Nat :=
  if pc then rootS_pc s v mode else (s, rootS_plain s v)

/-- Error outcomes of the engine, one constructor per distinct Python
exception site: `invalidArg` for the explicit
`Exception('Received ids must be of type int')`, `typeErr` for a
`TypeError` (the misnamed `pc_type` keyword in the rebuild branch, or
`int()` applied to a `sp.where` result that is not a single index),
`attrErr` for an `AttributeError` (`self.roots` missing when the size
table already exists), `idxErr` for an out-of-bounds `IndexError`. -/
inductive UFErr where
  | invalidArg : UFErr
  | typeErr : UFErr
  | attrErr : UFErr
  | idxErr : UFErr
deriving DecidableEq

/-- Engine state: `self.id_updated`, plus `self.roots` and `self.size`
which exist only after a weighted union materialized them. -/
structure UFState where
  id : List Nat
  roots : Option (List Nat)
  size : Option (List (Nat × Nat))
deriving DecidableEq

/-- `int(sp.where((self.size[0]==i))[0])`: the index of root `i` in the
size table; raises `TypeError` unless exactly one entry matches. -/
def sizeLookup (sz : List (Nat × Nat)) (i : Nat) : Except UFErr Nat :=
  match (List.range sz.length).filter (fun k => (sz.getD k (0, 0)).1 == i) with
  | [k] => Except.ok k
  | _ => Except.error UFErr.typeErr

/-- `sp.unique(l, return_counts=True)`: ascending distinct values paired
with their multiplicities. -/
def uniqueSorted (l : List Nat) : List Nat :=
  (List.range (l.foldr max 0 + 1)).filter (fun x => l.contains x)

def tally (l : List Nat) : List (Nat × Nat) :=
  (uniqueSorted l).map (fun x => (x, l.count x))

/-- `build_weighted_quick_union(minor, main, path_compression,
path_compression_type)`, after the type gate, modelled faithfully: when
`self.size` is absent the rebuild branch calls
`self.find_root(..., pc_type=...)`, but `find_root` has no `pc_type`
parameter, so Python raises `TypeError` (the inner bare `except:` has
already finished handling the missing-attribute probe and does not catch
it).  `self.roots` is modelled as a separate array: the only code path
that would alias it to `self.id_updated` is this crashing rebuild, so a
run that completes can only have received `roots`/`size` from outside. -/
def build_weighted_quick_union (e : UFState) (minor main : Nat) (pc : Bool)
    (mode : PCType) : Except UFErr UFState :=
  let p := rootS e.id minor pc mode
  let q := rootS p.1 main pc mode
  let s2 := q.1
  let i := p.2
  let j := q.2
  if i = j then Except.ok { e with id := s2 }
  else
    match e.size with
    | none => Except.error UFErr.typeErr
    | some sz =>
      match sizeLookup sz i with
      | Except.error err => Except.error err
      | Except.ok iIdx =>
      match sizeLookup sz j with
      | Except.error err => Except.error err
      | Except.ok jIdx =>
      let iSize := (sz.getD iIdx (0, 0)).2
      let jSize := (sz.getD jIdx (0, 0)).2
      match e.roots with
      | none => Except.error UFErr.attrErr
      | some ro =>
        if iSize ≤ jSize then
          Except.ok
            { id := s2.set i j
              roots := some (ro.map fun x => if x = i then j else x)
              size := some ((sz.set jIdx ((sz.getD jIdx (0, 0)).1,
                jSize + iSize)).eraseIdx iIdx) }
        else
          Except.ok
            { id := s2.set j i
              roots := some (ro.map fun x => if x = j then i else x)
              size := some ((sz.set iIdx ((sz.getD iIdx (0, 0)).1,
                iSize + jSize)).eraseIdx jIdx) }

/-- `build_weighted_quick_union` with the rebuild branch's keyword
repaired to `path_compression_type` (what the docstring example
documents).  After `self.roots = self.id_updated` the two names alias
one array, so the later `self.roots[self.roots == i] = j` write also
passes through to `self.id_updated`; `aliased` records that. -/
def build_weighted_quick_union_fixed (e : UFState) (minor main : Nat)
    (pc : Bool) (mode : PCType) : Except UFErr UFState :=
  let p := rootS e.id minor pc mode
  let q := rootS p.1 main pc mode
  let s2 := q.1
  let i := p.2
  let j := q.2
  if i = j then Except.ok { e with id := s2 }
  else
    let st : List Nat × Option (List Nat) × List (Nat × Nat) × Bool :=
      match e.size with
      | some sz => (s2, e.roots, sz, false)
      | none =>
        match e.roots with
        | some ro =>
          if ro.length = s2.length then (s2, some ro, tally ro, false)
          else
            let sR := find_root s2 (List.range s2.length) pc mode
            (sR, some sR, tally sR, true)
        | none =>
          let sR := find_root s2 (List.range s2.length) pc mode
          (sR, some sR, tally sR, true)
    match st with
    | (sId, roOpt, sz, aliased) =>
      match sizeLookup sz i with
      | Except.error err => Except.error err
      | Except.ok iIdx =>
      match sizeLookup sz j with
      | Except.error err => Except.error err
      | Except.ok jIdx =>
      let iSize := (sz.getD iIdx (0, 0)).2
      let jSize := (sz.getD jIdx (0, 0)).2
      match roOpt with
      | none => Except.error UFErr.attrErr
      | some ro =>
        if iSize ≤ jSize then
          let sId1 := sId.set i j
          let ro1 := (if aliased then sId1 else ro).map
            (fun x => if x = i then j else x)
          Except.ok
            { id := if aliased then ro1 else sId1
              roots := some ro1
              size := some ((sz.set jIdx ((sz.getD jIdx (0, 0)).1,
                jSize + iSize)).eraseIdx iIdx) }
        else
          let sId1 := sId.set j i
          let ro1 := (if aliased then sId1 else ro).map
            (fun x => if x = j then i else x)
          Except.ok
            { id := if aliased then ro1 else sId1
              roots := some ro1
              size := some ((sz.set iIdx ((sz.getD iIdx (0, 0)).1,
                iSize + jSize)).eraseIdx jIdx) }

theorem zip_map_self {g : Nat → Nat} (l : List Nat) (q : Nat × Nat)
    (h : q ∈ l.zip (l.map g)) : q.2 = g q.1 := by
  induction l with
  | nil => simp at h
  | cons x t ih =>
    rcases h with _ | _
    · rfl
    · exact ih (by assumption)

theorem dd_zero_iff (s : List Nat) (hs : ValidForest s) (v : Nat)
    (hv : v < s.length) : dd s v = 0 ↔ isRoot s v := by
  constructor
  · intro h0
    by_contra hnr
    have := dd_pos_of_not_isRoot s v hv hnr
    omega
  · exact dd_of_isRoot s v

theorem map_rootOf_self (s : List Nat) (vs : List Nat)
    (h : ∀ v ∈ vs, isRoot s v) : vs.map (rootOf s) = vs := by
  have h1 : vs.map (rootOf s) = vs.map id :=
    List.map_congr_left (fun v hv => rootOf_of_isRoot s v (h v hv))
  rw [h1, List.map_id]

theorem all_root_of_all_beq (s : List Nat) (vs : List Nat)
    (h : vs.all (fun v => par s v == v) = true) :
    ∀ v ∈ vs, isRoot s v := by
  intro v hv
  exact beq_iff_eq.mp (List.all_eq_true.mp h v hv)

theorem rootLoop_eq (s : List Nat) (hs : ValidForest s) (f : Nat)
    (vs : List Nat) (h : ∀ v ∈ vs, v < s.length ∧ isRoot s (iterP s f v)) :
    rootLoop s f vs = vs.map (rootOf s) := by
  induction f generalizing vs with
  | zero =>
    simp only [rootLoop]
    exact (map_rootOf_self s vs (fun v hv => (h v hv).2)).symm
  | succ f ih =>
    simp only [rootLoop]
    by_cases hall : vs.all (fun v => par s v == v) = true
    · rw [if_pos hall]
      exact (map_rootOf_self s vs (all_root_of_all_beq s vs hall)).symm
    · rw [if_neg hall]
      have h' : ∀ v ∈ vs.map (par s), v < s.length ∧ isRoot s (iterP s f v) := by
        intro v' hv'
        obtain ⟨v, hv, rfl⟩ := List.mem_map.mp hv'
        exact ⟨hs.1 v (h v hv).1, (h v hv).2⟩
      rw [ih (vs.map (par s)) h', List.map_map]
      apply List.map_congr_left
      intro v hv
      exact rootOf_par s hs v (h v hv).1

/-- `_root` returns exactly the roots of the queried batch. -/
theorem root_plain_spec (s : List Nat) (hs : ValidForest s) (vs : List Nat)
    (hv : ∀ v ∈ vs, v < s.length) :
    root_plain s vs = vs.map (rootOf s) :=
  rootLoop_eq s hs s.length vs (fun v hvm => ⟨hv v hvm, hs.2 v (hv v hvm)⟩)

/-- The path-halving loop: sufficient fuel returns the original roots,
preserves the forest invariant, the length, and every vertex's root. -/
theorem halveLoop_spec (f : Nat) (s vs : List Nat) (hs : ValidForest s)
    (hv : ∀ v ∈ vs, v < s.length) (hf : ∀ v ∈ vs, dd s v ≤ f) :
    (halveLoop f s vs).2 = vs.map (rootOf s) ∧
    ValidForest (halveLoop f s vs).1 ∧
    (halveLoop f s vs).1.length = s.length ∧
    (∀ x < s.length, rootOf (halveLoop f s vs).1 x = rootOf s x) := by
  induction f generalizing s vs with
  | zero =>
    simp only [halveLoop]
    refine ⟨?_, hs, by simp, by simp⟩
    refine (map_rootOf_self s vs (fun v hvm => ?_)).symm
    exact (dd_zero_iff s hs v (hv v hvm)).mp (Nat.le_zero.mp (hf v hvm))
  | succ f ih =>
    simp only [halveLoop]
    by_cases hall : vs.all (fun v => par s v == v) = true
    · rw [if_pos hall]
      exact ⟨(map_rootOf_self s vs (all_root_of_all_beq s vs hall)).symm,
        hs, by simp, by simp⟩
    · rw [if_neg hall]
      have hzip : ∀ q ∈ vs.zip (vs.map fun v => par s (par s v)),
          q.2 = (fun v => par s (par s v)) q.1 := fun q hq => zip_map_self vs q hq
      have hlen1 : (scatter s vs (vs.map fun v => par s (par s v))).length
          = s.length := scatter_length _ _ _
      have hpar1 : ∀ v ∈ vs, v < s.length →
          par (scatter s vs (vs.map fun v => par s (par s v))) v
            = par s (par s v) := by
        intro v hvm hvl
        exact scatter_par_fun s (fun v => par s (par s v)) vs _
          (by rw [List.length_map]) hzip v hvm hvl
      have hpar2 : ∀ v, v ∉ vs →
          par (scatter s vs (vs.map fun v => par s (par s v))) v = par s v :=
        fun v hnm => scatter_par_not_mem s vs _ v hnm
      have hanc := anc s (scatter s vs (vs.map fun v => par s (par s v))) hs
        hlen1
        (by
          intro v hvl
          by_cases hm : v ∈ vs
          · exact ⟨2, by rw [hpar1 v hm hvl]; rfl⟩
          · exact ⟨1, by rw [hpar2 v hm]; rfl⟩)
        (by
          intro v hvl hsel
          by_cases hm : v ∈ vs
          · rw [hpar1 v hm hvl] at hsel
            by_contra hnr
            have hd1 := dd_par s hs v hvl hnr
            by_cases hpr : isRoot s (par s v)
            · unfold isRoot at hpr
              rw [hpr] at hsel
              exact hnr hsel
            · have hd2 := dd_par s hs (par s v) (hs.1 v hvl) hpr
              rw [hsel] at hd2
              omega
          · rw [hpar2 v hm] at hsel
            exact hsel)
      obtain ⟨hvalid1, hroots1, hdd1⟩ := hanc
      set s1 := scatter s vs (vs.map fun v => par s (par s v)) with hs1def
      have hv1 : ∀ v' ∈ vs.map (par s1), v' < s.length := by
        intro v' hv'
        obtain ⟨v, hvm, rfl⟩ := List.mem_map.mp hv'
        have := hvalid1.1 v (by rw [hlen1]; exact hv v hvm)
        rw [hlen1] at this
        exact this
      have hf1 : ∀ v' ∈ vs.map (par s1), dd s1 v' ≤ f := by
        intro v' hv'
        obtain ⟨v, hvm, rfl⟩ := List.mem_map.mp hv'
        by_cases hr : isRoot s v
        · have hsv : par s1 v = v := by
            rw [hpar1 v hvm (hv v hvm)]
            unfold isRoot at hr
            rw [hr, hr]
          rw [hsv]
          have : isRoot s1 v := by
            unfold isRoot
            exact hsv
          rw [dd_of_isRoot s1 v this]
          exact Nat.zero_le f
        · have hgp : par s1 v = iterP s 2 v := by
            rw [hpar1 v hvm (hv v hvm)]; rfl
          have hd2 : dd s (iterP s 2 v) ≤ dd s v - 1 :=
            dd_iterP_le s hs 2 v (hv v hvm) (by omega) hr
          have hd3 : dd s1 (par s1 v) ≤ dd s (par s1 v) := by
            apply hdd1
            rw [hgp]
            exact iterP_lt s hs.1 2 v (hv v hvm)
          rw [hgp] at hd3 ⊢
          have := hf v hvm
          omega
      have hih := ih s1 (vs.map (par s1)) hvalid1
        (by rw [hlen1]; exact hv1) (by exact hf1)
      obtain ⟨ih1, ih2, ih3, ih4⟩ := hih
      rw [hlen1] at ih4
      refine ⟨?_, ih2, by rw [ih3, hlen1], ?_⟩
      · rw [ih1, List.map_map]
        apply List.map_congr_left
        intro v hvm
        show rootOf s1 (par s1 v) = rootOf s v
        have hvl1 : v < s1.length := by rw [hlen1]; exact hv v hvm
        rw [rootOf_par s1 hvalid1 v hvl1]
        exact hroots1 v (hv v hvm)
      · intro x hx
        rw [ih4 x hx]
        exact hroots1 x hx

/-- `_root_path_compression(..., 'path_halving')`: returns the original
roots; the state remains a valid forest with unchanged roots. -/
theorem root_path_halving_spec (s vs : List Nat) (hs : ValidForest s)
    (hv : ∀ v ∈ vs, v < s.length) :
    (root_path_halving s vs).2 = vs.map (rootOf s) ∧
    ValidForest (root_path_halving s vs).1 ∧
    (root_path_halving s vs).1.length = s.length ∧
    (∀ x < s.length, rootOf (root_path_halving s vs).1 x = rootOf s x) :=
  halveLoop_spec s.length s vs hs hv (fun v _ => dd_le s v)

theorem zip_self_mem (l : List Nat) (q : Nat × Nat) (h : q ∈ l.zip l) :
    q.1 = q.2 := by
  induction l with
  | nil => simp at h
  | cons x t ih =>
    rcases h with _ | _
    · rfl
    · exact ih (by assumption)

theorem mem_zip_map_self (g : Nat → Nat) (l : List Nat) (v : Nat)
    (hv : v ∈ l) : (v, g v) ∈ l.zip (l.map g) := by
  induction l with
  | nil => simp at hv
  | cons x t ih =>
    rcases List.mem_cons.mp hv with h | h
    · subst h; simp [List.zip_cons_cons]
    · simp only [List.map_cons, List.zip_cons_cons]
      exact List.mem_cons_of_mem _ (ih h)

/-- The write-back loop of full path compression: with sufficient fuel
it preserves the forest invariant, the length and all roots, changes a
parent pointer only to the vertex's root, and leaves every queried
vertex pointing directly at its root. -/
theorem fullLoop_spec (f : Nat) (s vi vj : List Nat) (hs : ValidForest s)
    (hvi : ∀ v ∈ vi, v < s.length)
    (hvj : ∀ a b : Nat, (a, b) ∈ vi.zip vj → rootOf s a = b)
    (hlen0 : vi.length = vj.length)
    (hf : ∀ v ∈ vi, dd s v ≤ f) :
    ValidForest (fullLoop f s vi vj) ∧
    (fullLoop f s vi vj).length = s.length ∧
    (∀ x < s.length, rootOf (fullLoop f s vi vj) x = rootOf s x) ∧
    (∀ x < s.length, par (fullLoop f s vi vj) x = par s x ∨
      par (fullLoop f s vi vj) x = rootOf s x) ∧
    (∀ q ∈ vi.zip vj, par (fullLoop f s vi vj) q.1 = q.2) := by
  induction f generalizing s vi with
  | zero =>
    simp only [fullLoop]
    refine ⟨hs, by simp, by simp, by simp, ?_⟩
    intro q hq
    obtain ⟨a, b⟩ := q
    have ha : a ∈ vi := (List.of_mem_zip hq).1
    have hroot : isRoot s a :=
      (dd_zero_iff s hs a (hvi a ha)).mp (Nat.le_zero.mp (hf a ha))
    have hb : rootOf s a = b := hvj a b hq
    show par s a = b
    rw [← hb, rootOf_of_isRoot s a hroot]
    exact hroot
  | succ f ih =>
    simp only [fullLoop]
    by_cases heq : (vi == vj) = true
    · rw [if_pos heq]
      have hvieq : vi = vj := beq_iff_eq.mp heq
      refine ⟨hs, by simp, by simp, by simp, ?_⟩
      intro q hq
      obtain ⟨a, b⟩ := q
      have hq' : (a, b) ∈ vi.zip vi := by rw [hvieq] at hq ⊢; exact hq
      have hab : a = b := zip_self_mem vi (a, b) hq'
      have ha : a ∈ vi := (List.of_mem_zip hq').1
      have hb : rootOf s a = b := hvj a b hq
      show par s a = b
      subst hab
      have hroot : isRoot s a := by
        have h2 := hs.2 a (hvi a ha)
        rwa [hb] at h2
      exact hroot
    · rw [if_neg heq]
      have hcons : ∀ q ∈ vi.zip vj, q.2 = rootOf s q.1 := by
        intro q hq
        obtain ⟨a, b⟩ := q
        exact (hvj a b hq).symm
      have hpar1 : ∀ v ∈ vi, par (scatter s vi vj) v = rootOf s v := by
        intro v hvm
        exact scatter_par_fun s (rootOf s) vi vj hlen0.symm hcons v hvm (hvi v hvm)
      have hpar2 : ∀ v, v ∉ vi → par (scatter s vi vj) v = par s v :=
        fun v hnm => scatter_par_not_mem s vi vj v hnm
      have hlen1 : (scatter s vi vj).length = s.length := scatter_length _ _ _
      have hanc := anc s (scatter s vi vj) hs hlen1
        (by
          intro v hvl
          by_cases hm : v ∈ vi
          · exact ⟨s.length, by rw [hpar1 v hm]; rfl⟩
          · exact ⟨1, by rw [hpar2 v hm]; rfl⟩)
        (by
          intro v hvl hsel
          by_cases hm : v ∈ vi
          · rw [hpar1 v hm] at hsel
            have h2 := hs.2 v hvl
            rwa [hsel] at h2
          · rwa [hpar2 v hm] at hsel)
      obtain ⟨hvalid1, hroots1, hdd1⟩ := hanc
      set s1 := scatter s vi vj with hs1def
      have hvn : ∀ v' ∈ vi.map (par s), v' < s1.length := by
        intro v' hv'
        obtain ⟨v, hvm, rfl⟩ := List.mem_map.mp hv'
        rw [hlen1]
        exact hs.1 v (hvi v hvm)
      have hvjn : ∀ a b : Nat, (a, b) ∈ (vi.map (par s)).zip vj →
          rootOf s1 a = b := by
        intro a b hab
        rw [List.zip_map_left] at hab
        obtain ⟨q, hq, hq2⟩ := List.mem_map.mp hab
        obtain ⟨qa, qb⟩ := q
        have ha : qa ∈ vi := (List.of_mem_zip hq).1
        have hb : rootOf s qa = qb := hvj qa qb hq
        have heq1 : par s qa = a := congrArg Prod.fst hq2
        have heq2 : qb = b := congrArg Prod.snd hq2
        rw [← heq1, ← heq2, ← hb]
        rw [hroots1 (par s qa) (hs.1 qa (hvi qa ha))]
        exact rootOf_par s hs qa (hvi qa ha)
      have hfn : ∀ v' ∈ vi.map (par s), dd s1 v' ≤ f := by
        intro v' hv'
        obtain ⟨v, hvm, rfl⟩ := List.mem_map.mp hv'
        by_cases hr : isRoot s v
        · have hpv : par s v = v := hr
          rw [hpv]
          have hroot1 : isRoot s1 v := by
            unfold isRoot
            rw [hpar1 v hvm, rootOf_of_isRoot s v hr]
          rw [dd_of_isRoot s1 v hroot1]
          exact Nat.zero_le f
        · have h1 : dd s1 (par s v) ≤ dd s (par s v) :=
            hdd1 (par s v) (hs.1 v (hvi v hvm))
          have h2 := dd_par s hs v (hvi v hvm) hr
          have h3 := hf v hvm
          omega
      have hvn' : ∀ v' ∈ vi.map (par s), v' < s1.length := hvn
      have hih := ih s1 (vi.map (par s)) hvalid1 hvn' hvjn
        (by rw [List.length_map]; exact hlen0) hfn
      obtain ⟨ih1, ih2, ih3, ih4, ih5⟩ := hih
      rw [hlen1] at ih3 ih4
      refine ⟨ih1, by rw [ih2, hlen1], ?_, ?_, ?_⟩
      · intro x hx
        rw [ih3 x hx]
        exact hroots1 x hx
      · intro x hx
        rcases ih4 x hx with h | h
        · by_cases hm : x ∈ vi
          · right
            rw [h, hpar1 x hm]
          · left
            rw [h, hpar2 x hm]
        · right
          rw [h, hroots1 x hx]
      · intro q hq
        obtain ⟨a, b⟩ := q
        have ha : a ∈ vi := (List.of_mem_zip hq).1
        have hb : b = rootOf s a := (hvj a b hq).symm
        have hx1 : a < s.length := hvi a ha
        show par (fullLoop f s1 (vi.map (par s)) vj) a = b
        rcases ih4 a hx1 with h | h
        · rw [h, hpar1 a ha, hb]
        · rw [h, hroots1 a hx1, hb]

/-- `_root_path_compression(..., 'full_pc')`: returns the original
roots, preserves validity, length and all roots, and leaves every
queried vertex pointing directly at its root. -/
theorem root_full_pc_spec (s vs : List Nat) (hs : ValidForest s)
    (hv : ∀ v ∈ vs, v < s.length) :
    (root_full_pc s vs).2 = vs.map (rootOf s) ∧
    ValidForest (root_full_pc s vs).1 ∧
    (root_full_pc s vs).1.length = s.length ∧
    (∀ x < s.length, rootOf (root_full_pc s vs).1 x = rootOf s x) ∧
    (∀ v ∈ vs, par (root_full_pc s vs).1 v = rootOf s v) := by
  have hvjeq : rootLoop s s.length vs = vs.map (rootOf s) :=
    root_plain_spec s hs vs hv
  have hspec := fullLoop_spec s.length s vs (vs.map (rootOf s)) hs hv
    (fun a b hab => (zip_map_self vs (a, b) hab).symm)
    (by rw [List.length_map])
    (fun v _ => dd_le s v)
  obtain ⟨h1, h2, h3, h4, h5⟩ := hspec
  unfold root_full_pc
  rw [hvjeq]
  refine ⟨rfl, h1, h2, h3, ?_⟩
  intro v hvm
  exact h5 (v, rootOf s v) (mem_zip_map_self (rootOf s) vs v hvm)

/-- `t` is a valid forest of the same size as `s` assigning every vertex
the same root. -/
def Pres (s t : List Nat) : Prop :=
  ValidForest t ∧ t.length = s.length ∧
    ∀ x < s.length, rootOf t x = rootOf s x

theorem Pres.trans_of (s t u : List Nat) (h1 : Pres s t) (h2 : Pres t u) :
    Pres s u := by
  obtain ⟨hv1, hl1, hr1⟩ := h1
  obtain ⟨hv2, hl2, hr2⟩ := h2
  refine ⟨hv2, by omega, ?_⟩
  intro x hx
  rw [hr2 x (by omega)]
  exact hr1 x hx

theorem Pres.refl_of (s : List Nat) (hs : ValidForest s) : Pres s s :=
  ⟨hs, rfl, fun _ _ => rfl⟩

theorem root_path_compression_spec (s vs : List Nat) (mode : PCType)
    (hs : ValidForest s) (hv : ∀ v ∈ vs, v < s.length) :
    (root_path_compression s vs mode).2 = vs.map (rootOf s) ∧
    Pres s (root_path_compression s vs mode).1 := by
  cases mode with
  | path_halving =>
    obtain ⟨h1, h2, h3, h4⟩ := root_path_halving_spec s vs hs hv
    exact ⟨h1, h2, h3, h4⟩
  | full_pc =>
    obtain ⟨h1, h2, h3, h4, _⟩ := root_full_pc_spec s vs hs hv
    exact ⟨h1, h2, h3, h4⟩

/-- Writing each queried vertex's root over its entry (the final
assignment of `find_root`) preserves the forest. -/
theorem scatter_roots_pres (s : List Nat) (hs : ValidForest s)
    (els : List Nat) (hv : ∀ v ∈ els, v < s.length) :
    Pres s (scatter s els (els.map (rootOf s))) ∧
    (∀ v ∈ els, par (scatter s els (els.map (rootOf s))) v = rootOf s v) ∧
    (∀ x, x ∉ els → par (scatter s els (els.map (rootOf s))) x = par s x) := by
  have hcons : ∀ q ∈ els.zip (els.map (rootOf s)), q.2 = rootOf s q.1 :=
    fun q hq => zip_map_self els q hq
  have hpar1 : ∀ v ∈ els, par (scatter s els (els.map (rootOf s))) v
      = rootOf s v := by
    intro v hvm
    exact scatter_par_fun s (rootOf s) els (els.map (rootOf s))
      (by rw [List.length_map]) hcons v hvm (hv v hvm)
  have hpar2 : ∀ x, x ∉ els →
      par (scatter s els (els.map (rootOf s))) x = par s x :=
    fun x hnm => scatter_par_not_mem s els _ x hnm
  have hlen1 : (scatter s els (els.map (rootOf s))).length = s.length :=
    scatter_length _ _ _
  have hanc := anc s (scatter s els (els.map (rootOf s))) hs hlen1
    (by
      intro v hvl
      by_cases hm : v ∈ els
      · exact ⟨s.length, by rw [hpar1 v hm]; rfl⟩
      · exact ⟨1, by rw [hpar2 v hm]; rfl⟩)
    (by
      intro v hvl hsel
      by_cases hm : v ∈ els
      · rw [hpar1 v hm] at hsel
        have h2 := hs.2 v hvl
        rwa [hsel] at h2
      · rwa [hpar2 v hm] at hsel)
  exact ⟨⟨hanc.1, hlen1, hanc.2.1⟩, hpar1, hpar2⟩

/-- The public `find_root` preserves the forest invariant, the length
and every root, with either compression flag and mode. -/
theorem find_root_pres (s els : List Nat) (pc : Bool) (mode : PCType)
    (hs : ValidForest s) (hv : ∀ v ∈ els, v < s.length) :
    Pres s (find_root s els pc mode) := by
  cases pc with
  | false =>
    show Pres s (scatter s els (root_plain s els))
    rw [root_plain_spec s hs els hv]
    exact (scatter_roots_pres s hs els hv).1
  | true =>
    show Pres s (scatter (root_path_compression s els mode).1 els
      (root_path_compression s els mode).2)
    obtain ⟨h1, h2⟩ := root_path_compression_spec s els mode hs hv
    obtain ⟨hv2, hl2, hr2⟩ := h2
    have hmapeq : (root_path_compression s els mode).2
        = els.map (rootOf (root_path_compression s els mode).1) := by
      rw [h1]
      exact (List.map_congr_left (fun v hvm => hr2 v (hv v hvm))).symm
    rw [hmapeq]
    have hv' : ∀ v ∈ els, v < (root_path_compression s els mode).1.length := by
      intro v hvm; rw [hl2]; exact hv v hvm
    exact Pres.trans_of s _ _ ⟨hv2, hl2, hr2⟩
      (scatter_roots_pres _ hv2 els hv').1

/-- The characterization of plain-mode public `find_root`: it writes
exactly the queried ids' roots at the queried positions. -/
theorem find_root_plain_eq (s els : List Nat) (mode : PCType)
    (hs : ValidForest s) (hv : ∀ v ∈ els, v < s.length) :
    find_root s els false mode = scatter s els (els.map (rootOf s)) := by
  show scatter s els (root_plain s els) = scatter s els (els.map (rootOf s))
  rw [root_plain_spec s hs els hv]

/-- Root-finding phase of the union builders: the two returned batches
are exactly the original roots and the state keeps every root. -/
theorem unionRoots_spec (s minor main : List Nat) (pc : Bool) (mode : PCType)
    (hs : ValidForest s) (hm : ∀ v ∈ minor, v < s.length)
    (hn : ∀ v ∈ main, v < s.length) :
    (unionRoots s minor main pc mode).2.1 = minor.map (rootOf s) ∧
    (unionRoots s minor main pc mode).2.2 = main.map (rootOf s) ∧
    Pres s (unionRoots s minor main pc mode).1 := by
  cases pc with
  | false =>
    refine ⟨root_plain_spec s hs minor hm, root_plain_spec s hs main hn,
      Pres.refl_of s hs⟩
  | true =>
    obtain ⟨h1, h2⟩ := root_path_compression_spec s minor mode hs hm
    obtain ⟨hv2, hl2, hr2⟩ := h2
    have hn' : ∀ v ∈ main, v < (root_path_compression s minor mode).1.length := by
      intro v hvm; rw [hl2]; exact hn v hvm
    obtain ⟨h3, h4⟩ := root_path_compression_spec
      (root_path_compression s minor mode).1 main mode hv2 hn'
    refine ⟨h1, ?_, Pres.trans_of s _ _ ⟨hv2, hl2, hr2⟩ h4⟩
    show (root_path_compression (root_path_compression s minor mode).1
      main mode).2 = main.map (rootOf s)
    rw [h3]
    exact List.map_congr_left (fun v hvm => hr2 v (hn v hvm))

theorem scatter_par_trivial (s ps ws : List Nat) (v : Nat)
    (hroot : par s v = v)
    (htriv : ∀ q ∈ ps.zip ws, q.1 = v → q.2 = v) :
    par (scatter s ps ws) v = v := by
  induction ps generalizing s ws with
  | nil => cases ws <;> exact hroot
  | cons p ps ih =>
    cases ws with
    | nil => exact hroot
    | cons w ws =>
      simp only [scatter]
      by_cases hpv : p = v
      · have hw : w = v := htriv (p, w) (by simp [List.zip_cons_cons]) hpv
        subst hpv hw
        have hset : s.set w w = s := by
          have h0 := set_par_self s w
          rwa [hroot] at h0
        rw [hset]
        exact ih s ws hroot (fun q hq hq1 => htriv q (by
          simp only [List.zip_cons_cons]
          exact List.mem_cons_of_mem _ hq) hq1)
      · have hpar' : par (s.set p w) v = v := by
          rw [par_set]
          simp only [hpv, false_and, if_neg, if_false]
          · exact hroot
        exact ih (s.set p w) ws hpar' (fun q hq hq1 => htriv q (by
          simp only [List.zip_cons_cons]
          exact List.mem_cons_of_mem _ hq) hq1)

/-- Attaching one root under another root: `id[i] = j`. -/
theorem set_root_att (s : List Nat) (hs : ValidForest s) (i j : Nat)
    (hi : i < s.length) (hj : j < s.length) (hri : isRoot s i)
    (hrj : isRoot s j) (hij : i ≠ j) :
    ValidForest (s.set i j) ∧ (s.set i j).length = s.length ∧
    (∀ x < s.length,
      rootOf (s.set i j) x = if rootOf s x = i then j else rootOf s x) := by
  have hlen : (s.set i j).length = s.length := List.length_set s i j
  have hpart : ∀ v, par (s.set i j) v = if i = v ∧ i < s.length then j
      else par s v := fun v => par_set s i j v
  have hatt := att s (s.set i j) hs hlen
    (by
      intro v hvl
      by_cases hvi : v = i
      · subst hvi
        right
        refine ⟨hri, ?_, ?_⟩
        · show par (s.set v j) (par (s.set v j) v) = par (s.set v j) v
          rw [hpart v, if_pos ⟨rfl, hvl⟩]
          rw [hpart j]
          have : ¬ (v = j ∧ v < s.length) := fun hc => hij hc.1
          rw [if_neg this]
          exact hrj
        · rw [hpart v, if_pos ⟨rfl, hvl⟩]
          exact hj
      · left
        rw [hpart v]
        have : ¬ (i = v ∧ i < s.length) := fun hc => hvi hc.1.symm
        rw [if_neg this])
  refine ⟨hatt.1, hlen, ?_⟩
  intro x hx
  rw [hatt.2 x hx]
  by_cases hcase : rootOf s x = i
  · rw [if_pos hcase, hcase, hpart i, if_pos ⟨rfl, hi⟩]
  · rw [if_neg hcase, hpart (rootOf s x)]
    have : ¬ (i = rootOf s x ∧ i < s.length) := fun hc => hcase hc.1.symm
    rw [if_neg this]
    exact hs.2 x hx

/-- The batch union write `id[i] = j` over root batches: valid whenever
no written value is also a nontrivially rewritten position. -/
theorem scatter_roots_att (s ps ws : List Nat) (hs : ValidForest s)
    (hps : ∀ p ∈ ps, p < s.length ∧ isRoot s p)
    (hws : ∀ w ∈ ws, w < s.length ∧ isRoot s w)
    (hdisj : ∀ q ∈ ps.zip ws, ∀ q' ∈ ps.zip ws, q'.1 ≠ q'.2 → q.2 ≠ q'.1) :
    ValidForest (scatter s ps ws) ∧ (scatter s ps ws).length = s.length := by
  have hlen : (scatter s ps ws).length = s.length := scatter_length _ _ _
  have hatt := att s (scatter s ps ws) hs hlen
    (by
      intro v hvl
      rcases scatter_par_or s ps ws v with h | h
      · left; exact h
      · right
        have hv1 : v ∈ ps := (List.of_mem_zip h).1
        have hv2 : par (scatter s ps ws) v ∈ ws := (List.of_mem_zip h).2
        refine ⟨(hps v hv1).2, ?_, (hws _ hv2).1⟩
        show isRoot (scatter s ps ws) (par (scatter s ps ws) v)
        unfold isRoot
        apply scatter_par_trivial
        · exact (hws _ hv2).2
        · intro q' hq' hq1
          by_contra hq2
          have hnt : q'.1 ≠ q'.2 := by rw [hq1]; exact fun hc => hq2 hc.symm
          exact hdisj _ h q' hq' hnt hq1.symm)
  exact ⟨hatt.1, hlen⟩

/-- A single-pair quick union makes the two arguments share a root and
keeps the forest valid (any compression flag and mode). -/
theorem union_single_pair (s : List Nat) (a b : Nat) (pc : Bool)
    (mode : PCType) (hs : ValidForest s) (ha : a < s.length)
    (hb : b < s.length) :
    ValidForest (build_quick_union s [a] [b] pc mode) ∧
    (build_quick_union s [a] [b] pc mode).length = s.length ∧
    rootOf (build_quick_union s [a] [b] pc mode) a
      = rootOf (build_quick_union s [a] [b] pc mode) b := by
  obtain ⟨hi, hj, hpres⟩ := unionRoots_spec s [a] [b] pc mode hs
    (by intro v hv; rw [List.mem_singleton.mp hv]; exact ha)
    (by intro v hv; rw [List.mem_singleton.mp hv]; exact hb)
  obtain ⟨hv2, hl2, hr2⟩ := hpres
  have hroota : rootOf (unionRoots s [a] [b] pc mode).1 a = rootOf s a :=
    hr2 a ha
  have hrootb : rootOf (unionRoots s [a] [b] pc mode).1 b = rootOf s b :=
    hr2 b hb
  unfold build_quick_union
  by_cases heq : ((unionRoots s [a] [b] pc mode).2.1 ==
      (unionRoots s [a] [b] pc mode).2.2) = true
  · rw [if_pos heq]
    have : rootOf s a = rootOf s b := by
      have h1 := beq_iff_eq.mp heq
      rw [hi, hj] at h1
      simpa using h1
    exact ⟨hv2, by rw [hl2], by rw [hroota, hrootb, this]⟩
  · rw [if_neg heq]
    have hne : rootOf s a ≠ rootOf s b := by
      intro hc
      apply heq
      rw [hi, hj]
      simp [hc]
    have hscatter : scatter (unionRoots s [a] [b] pc mode).1
        (unionRoots s [a] [b] pc mode).2.1
        (unionRoots s [a] [b] pc mode).2.2
        = (unionRoots s [a] [b] pc mode).1.set (rootOf s a) (rootOf s b) := by
      rw [hi, hj]
      rfl
    rw [hscatter]
    have hrai : isRoot (unionRoots s [a] [b] pc mode).1 (rootOf s a) := by
      have := hv2.2 a (by rw [hl2]; exact ha)
      rwa [hroota] at this
    have hrbj : isRoot (unionRoots s [a] [b] pc mode).1 (rootOf s b) := by
      have := hv2.2 b (by rw [hl2]; exact hb)
      rwa [hrootb] at this
    have hal : rootOf s a < (unionRoots s [a] [b] pc mode).1.length := by
      rw [hl2]; exact iterP_lt s hs.1 s.length a ha
    have hbl : rootOf s b < (unionRoots s [a] [b] pc mode).1.length := by
      rw [hl2]; exact iterP_lt s hs.1 s.length b hb
    obtain ⟨hva, hla, hca⟩ := set_root_att (unionRoots s [a] [b] pc mode).1
      hv2 (rootOf s a) (rootOf s b) hal hbl hrai hrbj hne
    refine ⟨hva, by rw [hla, hl2], ?_⟩
    rw [hca a (by rw [hl2]; exact ha), hca b (by rw [hl2]; exact hb)]
    rw [hroota, hrootb]
    rw [if_pos rfl, if_neg (fun hc => hne hc.symm)]

/-- Batch quick union preserves the forest invariant whenever no main
root coincides with a minor root that actually gets reassigned (in
particular whenever the two root batches do not cross). -/
theorem union_batch_valid (s minor main : List Nat) (pc : Bool)
    (mode : PCType) (hs : ValidForest s)
    (hm : ∀ v ∈ minor, v < s.length) (hn : ∀ v ∈ main, v < s.length)
    (hdisj : ∀ q ∈ (minor.map (rootOf s)).zip (main.map (rootOf s)),
      ∀ q' ∈ (minor.map (rootOf s)).zip (main.map (rootOf s)),
        q'.1 ≠ q'.2 → q.2 ≠ q'.1) :
    ValidForest (build_quick_union s minor main pc mode) ∧
    (build_quick_union s minor main pc mode).length = s.length := by
  obtain ⟨hi, hj, hpres⟩ := unionRoots_spec s minor main pc mode hs hm hn
  obtain ⟨hv2, hl2, hr2⟩ := hpres
  unfold build_quick_union
  by_cases heq : ((unionRoots s minor main pc mode).2.1 ==
      (unionRoots s minor main pc mode).2.2) = true
  · rw [if_pos heq]
    exact ⟨hv2, by rw [hl2]⟩
  · rw [if_neg heq]
    rw [hi, hj]
    have hroots : ∀ p ∈ minor.map (rootOf s),
        p < (unionRoots s minor main pc mode).1.length ∧
        isRoot (unionRoots s minor main pc mode).1 p := by
      intro p hp
      obtain ⟨v, hvm, rfl⟩ := List.mem_map.mp hp
      constructor
      · rw [hl2]; exact iterP_lt s hs.1 s.length v (hm v hvm)
      · have := hv2.2 v (by rw [hl2]; exact hm v hvm)
        rwa [hr2 v (hm v hvm)] at this
    have hroots' : ∀ p ∈ main.map (rootOf s),
        p < (unionRoots s minor main pc mode).1.length ∧
        isRoot (unionRoots s minor main pc mode).1 p := by
      intro p hp
      obtain ⟨v, hvm, rfl⟩ := List.mem_map.mp hp
      constructor
      · rw [hl2]; exact iterP_lt s hs.1 s.length v (hn v hvm)
      · have := hv2.2 v (by rw [hl2]; exact hn v hvm)
        rwa [hr2 v (hn v hvm)] at this
    obtain ⟨hva, hla⟩ := scatter_roots_att (unionRoots s minor main pc mode).1
      (minor.map (rootOf s)) (main.map (rootOf s)) hv2 hroots hroots' hdisj
    exact ⟨hva, by rw [hla, hl2]⟩

/-- When every corresponding pair already shares a root, the union step
performs no write: the result is exactly the state left by the two
root lookups (with `path_compression=False` that state is `s` itself). -/
theorem union_short_circuit (s minor main : List Nat) (pc : Bool)
    (mode : PCType) (hs : ValidForest s)
    (hm : ∀ v ∈ minor, v < s.length) (hn : ∀ v ∈ main, v < s.length)
    (hshare : minor.map (rootOf s) = main.map (rootOf s)) :
    build_quick_union s minor main pc mode
      = (unionRoots s minor main pc mode).1 ∧
    build_quick_union s minor main false mode = s := by
  obtain ⟨hi, hj, _⟩ := unionRoots_spec s minor main pc mode hs hm hn
  constructor
  · unfold build_quick_union
    have heq : ((unionRoots s minor main pc mode).2.1 ==
        (unionRoots s minor main pc mode).2.2) = true := by
      rw [hi, hj, hshare]
      exact beq_self_eq_true _
    rw [if_pos heq]
  · obtain ⟨hi0, hj0, _⟩ := unionRoots_spec s minor main false mode hs hm hn
    unfold build_quick_union
    have heq : ((unionRoots s minor main false mode).2.1 ==
        (unionRoots s minor main false mode).2.2) = true := by
      rw [hi0, hj0, hshare]
      exact beq_self_eq_true _
    rw [if_pos heq]
    rfl

theorem rootS_plain_spec (s : List Nat) (hs : ValidForest s) (v : Nat)
    (hv : v < s.length) : rootS_plain s v = rootOf s v := by
  unfold rootS_plain
  rw [root_plain_spec s hs [v] (by intro w hw; rw [List.mem_singleton.mp hw]; exact hv)]
  rfl

theorem rootS_pc_spec (s : List Nat) (mode : PCType) (hs : ValidForest s)
    (v : Nat) (hv : v < s.length) :
    (rootS_pc s v mode).2 = rootOf s v ∧ Pres s (rootS_pc s v mode).1 := by
  obtain ⟨h1, h2⟩ := root_path_compression_spec s [v] mode hs
    (by intro w hw; rw [List.mem_singleton.mp hw]; exact hv)
  constructor
  · show (root_path_compression s [v] mode).2.headD v = rootOf s v
    rw [h1]
    rfl
  · exact h2

theorem rootS_spec (s : List Nat) (v : Nat) (pc : Bool) (mode : PCType)
    (hs : ValidForest s) (hv : v < s.length) :
    (rootS s v pc mode).2 = rootOf s v ∧ Pres s (rootS s v pc mode).1 := by
  cases pc with
  | false => exact ⟨rootS_plain_spec s hs v hv, Pres.refl_of s hs⟩
  | true => exact rootS_pc_spec s mode hs v hv

/-- Any run of `build_weighted_quick_union` that completes without an
exception leaves a valid forest of unchanged length in which the two
arguments share a root. -/
theorem build_weighted_ok (e : UFState) (minor main : Nat) (pc : Bool)
    (mode : PCType) (hs : ValidForest e.id) (hm : minor < e.id.length)
    (hn : main < e.id.length) (e' : UFState)
    (hok : build_weighted_quick_union e minor main pc mode = Except.ok e') :
    ValidForest e'.id ∧ e'.id.length = e.id.length ∧
    rootOf e'.id minor = rootOf e'.id main := by
  obtain ⟨hp2, hpres1⟩ := rootS_spec e.id minor pc mode hs hm
  obtain ⟨hv1, hl1, hr1⟩ := hpres1
  obtain ⟨hq2, hpres2⟩ := rootS_spec (rootS e.id minor pc mode).1
    main pc mode hv1 (by rw [hl1]; exact hn)
  obtain ⟨hv2, hl2, hr2⟩ := hpres2
  set P := rootS e.id minor pc mode with hPdef
  set Q := rootS P.1 main pc mode with hQdef
  have hq2' : Q.2 = rootOf e.id main := by
    rw [hq2]
    exact hr1 main hn
  have hlen2 : Q.1.length = e.id.length := by rw [hl2, hl1]
  have hroot2 : ∀ x < e.id.length, rootOf Q.1 x = rootOf e.id x := by
    intro x hx
    rw [hr2 x (by rw [hl1]; exact hx)]
    exact hr1 x hx
  have hmain : rootOf Q.1 minor = rootOf e.id minor := hroot2 minor hm
  have hmain' : rootOf Q.1 main = rootOf e.id main := hroot2 main hn
  unfold build_weighted_quick_union at hok
  simp only [] at hok
  rw [← hQdef] at hok
  by_cases hij : P.2 = Q.2
  · rw [if_pos hij] at hok
    have he' : e' = { e with id := Q.1 } := by
      cases hok
      rfl
    subst he'
    refine ⟨hv2, by rw [hlen2], ?_⟩
    show rootOf Q.1 minor = rootOf Q.1 main
    rw [hmain, hmain', ← hp2, ← hq2', hij]
  · rw [if_neg hij] at hok
    have hine : rootOf e.id minor ≠ rootOf e.id main := by
      rw [← hp2, ← hq2']
      exact hij
    rw [← hPdef] at hok
    have hial : rootOf e.id minor < Q.1.length := by
      rw [hlen2]
      exact iterP_lt e.id hs.1 e.id.length minor hm
    have hjal : rootOf e.id main < Q.1.length := by
      rw [hlen2]
      exact iterP_lt e.id hs.1 e.id.length main hn
    have hri : isRoot Q.1 (rootOf e.id minor) := by
      have := hv2.2 minor (by rw [hlen2]; exact hm)
      rwa [hmain] at this
    have hrj : isRoot Q.1 (rootOf e.id main) := by
      have := hv2.2 main (by rw [hlen2]; exact hn)
      rwa [hmain'] at this
    split at hok
    · cases hok
    · rename_i sz hsz
      split at hok
      · cases hok
      · rename_i iIdx hIi
        split at hok
        · cases hok
        · rename_i jIdx hIj
          split at hok
          · cases hok
          · rename_i ro hro
            split at hok
            · have he' : e'.id = Q.1.set P.2 Q.2 := by
                cases hok
                rfl
              rw [he', hp2, hq2']
              obtain ⟨hva, hla, hca⟩ := set_root_att Q.1 hv2
                (rootOf e.id minor) (rootOf e.id main) hial hjal hri hrj hine
              refine ⟨hva, by rw [hla, hlen2], ?_⟩
              rw [hca minor (by rw [hlen2]; exact hm),
                hca main (by rw [hlen2]; exact hn)]
              rw [hmain, hmain']
              rw [if_pos rfl, if_neg (fun hc => hine hc.symm)]
            · have he' : e'.id = Q.1.set Q.2 P.2 := by
                cases hok
                rfl
              rw [he', hp2, hq2']
              obtain ⟨hva, hla, hca⟩ := set_root_att Q.1 hv2
                (rootOf e.id main) (rootOf e.id minor) hjal hial hrj hri
                (fun hc => hine hc.symm)
              refine ⟨hva, by rw [hla, hlen2], ?_⟩
              rw [hca minor (by rw [hlen2]; exact hm),
                hca main (by rw [hlen2]; exact hn)]
              rw [hmain, hmain']
              rw [if_neg (fun hc => hine hc), if_pos rfl]

theorem fullLoop_fixed (f : Nat) (t vs vj : List Nat)
    (hj : vj = vs.map (par t))
    (hnoop : ∀ q ∈ vs.zip vj, par t q.1 = q.2) :
    fullLoop f t vs vj = t := by
  cases f with
  | zero => rfl
  | succ f =>
    simp only [fullLoop]
    by_cases heq : (vs == vj) = true
    · rw [if_pos heq]
    · rw [if_neg heq]
      rw [scatter_noop t vs vj hnoop, ← hj]
      cases f with
      | zero => rfl
      | succ f =>
        simp only [fullLoop]
        rw [if_pos (beq_self_eq_true vj)]

/-- Full-compression root lookup is idempotent: repeating it on the same
batch returns the same roots and leaves the state untouched. -/
theorem root_full_pc_idem (s vs : List Nat) (hs : ValidForest s)
    (hv : ∀ v ∈ vs, v < s.length) :
    (root_full_pc (root_full_pc s vs).1 vs).2 = (root_full_pc s vs).2 ∧
    (root_full_pc (root_full_pc s vs).1 vs).1 = (root_full_pc s vs).1 := by
  obtain ⟨h1, h2, h3, h4, h5⟩ := root_full_pc_spec s vs hs hv
  have hvt : ∀ v ∈ vs, v < (root_full_pc s vs).1.length := by
    intro v hvm; rw [h3]; exact hv v hvm
  have hrt : ∀ v ∈ vs, rootOf (root_full_pc s vs).1 v = rootOf s v :=
    fun v hvm => h4 v (hv v hvm)
  have hpart : ∀ v ∈ vs, par (root_full_pc s vs).1 v
      = rootOf (root_full_pc s vs).1 v := by
    intro v hvm
    rw [h5 v hvm, hrt v hvm]
  have hroots2 : rootLoop (root_full_pc s vs).1 (root_full_pc s vs).1.length vs
      = vs.map (rootOf (root_full_pc s vs).1) :=
    root_plain_spec (root_full_pc s vs).1 h2 vs hvt
  have hmapeq : vs.map (rootOf (root_full_pc s vs).1) = vs.map (rootOf s) :=
    List.map_congr_left hrt
  constructor
  · show rootLoop (root_full_pc s vs).1 (root_full_pc s vs).1.length vs
      = (root_full_pc s vs).2
    rw [hroots2, hmapeq, ← h1]
  · show fullLoop (root_full_pc s vs).1.length (root_full_pc s vs).1 vs
      (rootLoop (root_full_pc s vs).1 (root_full_pc s vs).1.length vs)
      = (root_full_pc s vs).1
    rw [hroots2]
    apply fullLoop_fixed
    · exact List.map_congr_left (fun v hvm => (hpart v hvm).symm)
    · intro q hq
      have hq2 : q.2 = rootOf (root_full_pc s vs).1 q.1 := zip_map_self vs q hq
      rw [hq2]
      exact hpart q.1 (List.of_mem_zip hq).1

/-- numpy integer indexing into the parents array: indices in
`[0, N)` read directly, indices in `[-N, 0)` wrap around to `N + i`
(Python/numpy negative indexing), anything else raises `IndexError`. -/
def npGet (s : List Nat) (i : Int) : Except UFErr Nat :=
  if 0 ≤ i ∧ i < (s.length : Int) then Except.ok (s.getD i.toNat 0)
  else if -(s.length : Int) ≤ i ∧ i < 0 then
    Except.ok (s.getD ((s.length : Int) + i).toNat 0)
  else Except.error UFErr.idxErr

/-- The in-range vertex a possibly negative index denotes. -/
def npWrap (s : List Nat) (i : Int) : Nat :=
  if 0 ≤ i then i.toNat else ((s.length : Int) + i).toNat

/-- Scalar `_root` under real numpy indexing: ids are Python ints,
possibly negative; the parent gather is evaluated in the loop condition
`sp.any(v_i != self.id_updated[v_i])`, so an out-of-bounds id raises
there before any iteration. -/
def rootE (s : List Nat) : Nat → Int → Except UFErr Int
  | 0, v => Except.ok v
  | f + 1, v =>
    match npGet s v with
    | Except.error err => Except.error err
    | Except.ok p => if v = (p : Int) then Except.ok v else rootE s f (p : Int)

/-- Gather `self.id_updated[v_i]` for a whole batch of ids: a single
out-of-bounds id makes the whole gather raise. -/
def gatherE (s : List Nat) : List Int → Except UFErr (List Nat)
  | [] => Except.ok []
  | i :: t =>
    match npGet s i with
    | Except.error err => Except.error err
    | Except.ok p =>
      match gatherE s t with
      | Except.error err => Except.error err
      | Except.ok r => Except.ok (p :: r)

/-- Batch `_root` under real numpy indexing. -/
def rootLoopE (s : List Nat) : Nat → List Int → Except UFErr (List Int)
  | 0, vs => Except.ok vs
  | f + 1, vs =>
    match gatherE s vs with
    | Except.error err => Except.error err
    | Except.ok ps =>
      if vs = ps.map Int.ofNat then Except.ok vs
      else rootLoopE s f (ps.map Int.ofNat)

theorem npGet_error_iff (s : List Nat) (i : Int) :
    (∃ err, npGet s i = Except.error err) ↔
      (i < -(s.length : Int) ∨ (s.length : Int) ≤ i) := by
  unfold npGet
  by_cases h1 : 0 ≤ i ∧ i < (s.length : Int)
  · rw [if_pos h1]
    constructor
    · intro ⟨err, herr⟩; cases herr
    · intro h; omega
  · rw [if_neg h1]
    by_cases h2 : -(s.length : Int) ≤ i ∧ i < 0
    · rw [if_pos h2]
      constructor
      · intro ⟨err, herr⟩; cases herr
      · intro h; omega
    · rw [if_neg h2]
      constructor
      · intro _; omega
      · intro _; exact ⟨UFErr.idxErr, rfl⟩

theorem npGet_ok (s : List Nat) (i : Int)
    (h : -(s.length : Int) ≤ i ∧ i < (s.length : Int)) :
    npGet s i = Except.ok (par s (npWrap s i)) ∧ npWrap s i < s.length := by
  unfold npGet npWrap
  by_cases h0 : 0 ≤ i
  · have hlt : i.toNat < s.length := by omega
    rw [if_pos ⟨h0, h.2⟩, if_pos h0]
    constructor
    · unfold par
      rw [List.getD_eq_getElem?_getD, List.getD_eq_getElem?_getD,
        List.getElem?_eq_getElem hlt]
      rfl
    · exact hlt
  · have hcond : ¬ (0 ≤ i ∧ i < (s.length : Int)) := fun hc => h0 hc.1
    have hlt : ((s.length : Int) + i).toNat < s.length := by omega
    rw [if_neg hcond, if_pos ⟨h.1, by omega⟩, if_neg h0]
    constructor
    · unfold par
      rw [List.getD_eq_getElem?_getD, List.getD_eq_getElem?_getD,
        List.getElem?_eq_getElem hlt]
      rfl
    · exact hlt

theorem rootE_step (s : List Nat) (f : Nat) (v : Int) (p : Nat)
    (hget : npGet s v = Except.ok p) :
    rootE s (f + 1) v = if v = (p : Int) then Except.ok v
      else rootE s f (p : Int) := by
  conv_lhs => rw [rootE]
  rw [hget]

theorem npWrap_natCast (s : List Nat) (w : Nat) : npWrap s (w : Int) = w := by
  unfold npWrap
  rw [if_pos (by omega : (0 : Int) ≤ (w : Int))]
  exact Int.toNat_natCast w

theorem rootE_nat (s : List Nat) (hs : ValidForest s) (f : Nat) (w : Nat)
    (hw : w < s.length) (hroot : isRoot s (iterP s f w)) :
    rootE s (f + 1) (w : Int) = Except.ok ((rootOf s w : Nat) : Int) := by
  induction f generalizing w with
  | zero =>
    have hokw := npGet_ok s (w : Int) (by constructor <;> omega)
    rw [npWrap_natCast] at hokw
    rw [rootE_step s 0 (w : Int) (par s w) hokw.1]
    have hr : par s w = w := hroot
    rw [hr, if_pos rfl, rootOf_of_isRoot s w hroot]
  | succ f ih =>
    have hokw := npGet_ok s (w : Int) (by constructor <;> omega)
    rw [npWrap_natCast] at hokw
    rw [rootE_step s (f + 1) (w : Int) (par s w) hokw.1]
    by_cases hr : (w : Int) = ((par s w : Nat) : Int)
    · rw [if_pos hr]
      have hroot2 : isRoot s w := by
        have hcast : par s w = w := by exact_mod_cast hr.symm
        exact hcast
      rw [rootOf_of_isRoot s w hroot2]
    · rw [if_neg hr]
      have hroot2 : isRoot s (iterP s f (par s w)) := hroot
      have hih := ih (par s w) (hs.1 w hw) hroot2
      rw [hih, rootOf_par s hs w hw]

/-- Scalar `_root` on an id in `[-N, N)`: completes and returns the
root of the wrapped vertex. -/
theorem rootE_ok (s : List Nat) (hs : ValidForest s) (v : Int)
    (hv : -(s.length : Int) ≤ v ∧ v < (s.length : Int)) :
    rootE s (s.length + 1) v = Except.ok ((rootOf s (npWrap s v) : Nat) : Int) := by
  by_cases h0 : 0 ≤ v
  · have hwrap : npWrap s v = v.toNat := by unfold npWrap; rw [if_pos h0]
    have hcast : ((v.toNat : Nat) : Int) = v := Int.toNat_of_nonneg h0
    have hlt : v.toNat < s.length := by omega
    rw [hwrap]
    rw [← hcast]
    exact rootE_nat s hs s.length v.toNat hlt (hs.2 v.toNat hlt)
  · have hneg : v < 0 := by omega
    have hlen1 : 1 ≤ s.length := by omega
    obtain ⟨n, hn⟩ : ∃ n, s.length = n + 1 := ⟨s.length - 1, by omega⟩
    set w := npWrap s v with hwdef
    have hwlt : w < s.length := by
      unfold npWrap at hwdef
      rw [if_neg h0] at hwdef
      omega
    have hget : npGet s v = Except.ok (par s w) := (npGet_ok s v hv).1
    rw [hn]
    show rootE s (n + 1 + 1) v = Except.ok ((rootOf s w : Nat) : Int)
    rw [rootE_step s (n + 1) v (par s w) hget]
    have hne : v ≠ ((par s w : Nat) : Int) := by
      have : (0 : Int) ≤ ((par s w : Nat) : Int) := by omega
      omega
    rw [if_neg hne]
    have hroot : isRoot s (iterP s n (par s w)) := by
      have h2 := hs.2 w hwlt
      unfold rootOf at h2
      rw [hn] at h2
      exact h2
    have := rootE_nat s hs n (par s w) (hs.1 w hwlt) hroot
    rw [this, rootOf_par s hs w hwlt]

/-- Scalar `_root` on an id outside `[-N, N)`: raises IndexError. -/
theorem rootE_err (s : List Nat) (v : Int)
    (hv : v < -(s.length : Int) ∨ (s.length : Int) ≤ v) :
    rootE s (s.length + 1) v = Except.error UFErr.idxErr := by
  simp only [rootE]
  have herr : npGet s v = Except.error UFErr.idxErr := by
    unfold npGet
    rw [if_neg (by omega), if_neg (by omega)]
  rw [herr]

theorem gatherE_error_iff (s : List Nat) (vs : List Int) :
    (∃ err, gatherE s vs = Except.error err) ↔
      ∃ i ∈ vs, i < -(s.length : Int) ∨ (s.length : Int) ≤ i := by
  induction vs with
  | nil =>
    simp only [gatherE]
    constructor
    · intro ⟨err, herr⟩; cases herr
    · intro ⟨i, hi, _⟩; simp at hi
  | cons i t ih =>
    simp only [gatherE]
    constructor
    · intro ⟨err, herr⟩
      cases hget : npGet s i with
      | error e2 =>
        exact ⟨i, List.mem_cons_self i t,
          (npGet_error_iff s i).mp ⟨e2, hget⟩⟩
      | ok p =>
        rw [hget] at herr
        cases hrest : gatherE s t with
        | error e3 =>
          obtain ⟨j, hj, hbad⟩ := ih.mp ⟨e3, hrest⟩
          exact ⟨j, List.mem_cons_of_mem i hj, hbad⟩
        | ok r =>
          rw [hrest] at herr
          cases herr
    · intro ⟨j, hj, hbad⟩
      rcases List.mem_cons.mp hj with hji | hjt
      · subst hji
        have : npGet s j = Except.error UFErr.idxErr := by
          unfold npGet
          rw [if_neg (by omega), if_neg (by omega)]
        rw [this]
        exact ⟨UFErr.idxErr, rfl⟩
      · obtain ⟨e3, he3⟩ := ih.mpr ⟨j, hjt, hbad⟩
        cases hget : npGet s i with
        | error e2 => exact ⟨e2, rfl⟩
        | ok p =>
          rw [he3]
          exact ⟨e3, rfl⟩

theorem gatherE_ok_vals (s : List Nat) (hw : Wf s) (vs : List Int)
    (hvs : ∀ i ∈ vs, -(s.length : Int) ≤ i ∧ i < (s.length : Int)) :
    ∃ ps, gatherE s vs = Except.ok ps ∧ ∀ p ∈ ps, p < s.length := by
  induction vs with
  | nil => exact ⟨[], rfl, by simp⟩
  | cons i t ih =>
    have hi := hvs i (List.mem_cons_self i t)
    have hget := (npGet_ok s i hi).1
    have hwrapped := (npGet_ok s i hi).2
    obtain ⟨ps, hps, hbound⟩ := ih (fun j hj => hvs j (List.mem_cons_of_mem _ hj))
    refine ⟨par s (npWrap s i) :: ps, ?_, ?_⟩
    · simp only [gatherE]
      rw [hget, hps]
    · intro p hp
      rcases List.mem_cons.mp hp with h | h
      · subst h
        exact hw (npWrap s i) hwrapped
      · exact hbound p h

theorem rootLoopE_step (s : List Nat) (f : Nat) (vs : List Int)
    (ps : List Nat) (hget : gatherE s vs = Except.ok ps) :
    rootLoopE s (f + 1) vs = if vs = ps.map Int.ofNat
      then Except.ok vs else rootLoopE s f (ps.map Int.ofNat) := by
  conv_lhs => rw [rootLoopE]
  rw [hget]

theorem rootLoopE_step_err (s : List Nat) (f : Nat) (vs : List Int)
    (err : UFErr) (hget : gatherE s vs = Except.error err) :
    rootLoopE s (f + 1) vs = Except.error err := by
  conv_lhs => rw [rootLoopE]
  rw [hget]

/-- Batch `_root` completes on any batch of ids inside `[-N, N)`. -/
theorem rootLoopE_ok (s : List Nat) (hw : Wf s) (f : Nat) (vs : List Int)
    (hvs : ∀ i ∈ vs, -(s.length : Int) ≤ i ∧ i < (s.length : Int)) :
    ∃ rs, rootLoopE s f vs = Except.ok rs := by
  induction f generalizing vs with
  | zero => exact ⟨vs, rfl⟩
  | succ f ih =>
    obtain ⟨ps, hps, hbound⟩ := gatherE_ok_vals s hw vs hvs
    rw [rootLoopE_step s f vs ps hps]
    by_cases heq : vs = ps.map Int.ofNat
    · rw [if_pos heq]
      exact ⟨vs, rfl⟩
    · rw [if_neg heq]
      apply ih
      intro i hi
      obtain ⟨p, hp, rfl⟩ := List.mem_map.mp hi
      have hb := hbound p hp
      have hcast : Int.ofNat p = (p : Int) := rfl
      rw [hcast]
      constructor <;> omega

/-- Batch `_root` raises IndexError as soon as one id lies outside
`[-N, N)`. -/
theorem rootLoopE_err (s : List Nat) (f : Nat) (vs : List Int) (hf : 1 ≤ f)
    (hbad : ∃ i ∈ vs, i < -(s.length : Int) ∨ (s.length : Int) ≤ i) :
    ∃ err, rootLoopE s f vs = Except.error err := by
  obtain ⟨n, hn⟩ : ∃ n, f = n + 1 := ⟨f - 1, by omega⟩
  subst hn
  obtain ⟨err, herr⟩ := (gatherE_error_iff s vs).mpr hbad
  exact ⟨err, rootLoopE_step_err s n vs err herr⟩

/-- Runtime class of a Python value supplied as a vertex id, as far as
the gate `type(x) != int` can distinguish: a built-in `int`, a numpy
integer scalar (such as `sp.int64`, the type of every element read out
of an integer `sp.array`), or a numpy array (a batched argument). -/
inductive PyArg where
  | pyInt : Int → PyArg
  | npInt : Int → PyArg
  | npArray : List Int → PyArg
deriving DecidableEq

/-- `type(x) == int`: true only for the built-in scalar int; in
particular false for numpy integer scalars. -/
def isTypeInt : PyArg → Bool
  | PyArg.pyInt _ => true
  | _ => false

/-- A scalar integral vertex id regardless of its concrete integer
representation: built-in int or numpy integer scalar; a numpy array is
batched, not scalar. -/
def isScalarIntegral : PyArg → Bool
  | PyArg.pyInt _ => true
  | PyArg.npInt _ => true
  | PyArg.npArray _ => false

/-- numpy wraparound from a Python int id to the engine's vertex. -/
def wrapIdx (n : Nat) (i : Int) : Except UFErr Nat :=
  if 0 ≤ i ∧ i < (n : Int) then Except.ok i.toNat
  else if -(n : Int) ≤ i ∧ i < 0 then Except.ok ((n : Int) + i).toNat
  else Except.error UFErr.idxErr

/-- `build_weighted_quick_union` with its leading type gate
`if ((type(minor)!=int) or (type(main)!=int)): raise Exception('Received
ids must be of type int')`.  The gate runs before anything reads or
writes the state; it admits exactly the built-in ints, whose value is
then interpreted with numpy index wraparound. -/
def build_weighted_quick_union_py (e : UFState) (minor main : PyArg)
    (pc : Bool) (mode : PCType) : Except UFErr UFState :=
  if !(isTypeInt minor && isTypeInt main) then Except.error UFErr.invalidArg
  else
    match minor, main with
    | PyArg.pyInt a, PyArg.pyInt b =>
      match wrapIdx e.id.length a with
      | Except.error err => Except.error err
      | Except.ok m =>
        match wrapIdx e.id.length b with
        | Except.error err => Except.error err
        | Except.ok n => build_weighted_quick_union e m n pc mode
    | _, _ => Except.error UFErr.invalidArg

theorem sizeLookup_error (sz : List (Nat × Nat)) (i : Nat) (err : UFErr)
    (h : sizeLookup sz i = Except.error err) : err = UFErr.typeErr := by
  unfold sizeLookup at h
  split at h
  · cases h
  · cases h
    rfl

/-- Every outcome of the inner weighted union: success, a `TypeError`
site, or an `AttributeError` site. -/
theorem build_weighted_errors (e : UFState) (m n : Nat) (pc : Bool)
    (mode : PCType) :
    (∃ e', build_weighted_quick_union e m n pc mode = Except.ok e') ∨
    build_weighted_quick_union e m n pc mode = Except.error UFErr.typeErr ∨
    build_weighted_quick_union e m n pc mode = Except.error UFErr.attrErr := by
  unfold build_weighted_quick_union
  simp only []
  split
  · exact Or.inl ⟨_, rfl⟩
  · split
    · exact Or.inr (Or.inl rfl)
    · split
      · rename_i err herr
        rw [sizeLookup_error _ _ _ herr]
        exact Or.inr (Or.inl rfl)
      · split
        · rename_i err herr
          rw [sizeLookup_error _ _ _ herr]
          exact Or.inr (Or.inl rfl)
        · split
          · exact Or.inr (Or.inr rfl)
          · split
            · exact Or.inl ⟨_, rfl⟩
            · exact Or.inl ⟨_, rfl⟩

/-- The inner weighted union never signals the invalid-argument
condition: its own failures are `TypeError`/`AttributeError` sites. -/
theorem build_weighted_no_invalidArg (e : UFState) (m n : Nat) (pc : Bool)
    (mode : PCType) :
    build_weighted_quick_union e m n pc mode ≠ Except.error UFErr.invalidArg := by
  intro hcon
  rcases build_weighted_errors e m n pc mode with ⟨e', he'⟩ | h | h
  · rw [hcon] at he'
    cases he'
  · rw [hcon] at h
    cases h
  · rw [hcon] at h
    cases h

/-- Neighbor list of vertex `k` (`self.adj_list[k]`). -/
def nbrs (adj : List (List Nat)) (k : Nat) : List Nat := adj.getD k []

/-- Adjacency list over `adj.length` vertices: neighbor ids in range. -/
def AdjOk (adj : List (List Nat)) : Prop :=
  ∀ k < adj.length, ∀ x ∈ nbrs adj k, x < adj.length

instance (adj : List (List Nat)) : Decidable (AdjOk adj) := by
  unfold AdjOk; infer_instance

/-- Reciprocal edges are present (the storage discipline §3 of the
design requires of callers for full connectivity). -/
def SymmAdj (adj : List (List Nat)) : Prop :=
  ∀ u < adj.length, ∀ v ∈ nbrs adj u, u ∈ nbrs adj v

instance (adj : List (List Nat)) : Decidable (SymmAdj adj) := by
  unfold SymmAdj; infer_instance

/-- `_visit_for_depth_first_search(val, now, k)`: set `self.roots[k] =
now`, then for each neighbor still labeled `-1` recurse.  `val` is an
alias of `self.roots`, so the check always sees the current array.  The
fuel argument stands for the call stack; each nested call starts from a
vertex that was unvisited a moment before, so `adj.length` levels
suffice. -/
def visit (adj : List (List Nat)) : Nat → List Int → Int → Nat → List Int
  | 0, r, _, _ => r
  | f + 1, r, now, k =>
    (nbrs adj k).foldl
      (fun r2 x => if r2.getD x 0 = -1 then visit adj f r2 now x else r2)
      (r.set k now)

/-- `depth_first_search()`: labels start at `-1` (unvisited); scan
vertices in order, opening label `now+1` for each still-unvisited one.
Returns the final counter together with `self.roots`. -/
def depth_first_search (adj : List (List Nat)) : Int × List Int :=
  (List.range adj.length).foldl
    (fun st i =>
      if st.2.getD i 0 = -1 then
        (st.1 + 1, visit adj adj.length st.2 (st.1 + 1) i)
      else st)
    (-1, (List.replicate adj.length (-1) : List Int))

/-- The label array `depth_first_search` returns. -/
def dfs_labels (adj : List (List Nat)) : List Int :=
  (depth_first_search adj).2

/-- Number of components found: final counter plus one. -/
def dfs_count (adj : List (List Nat)) : Int :=
  (depth_first_search adj).1 + 1

/-- Reachability along the listed adjacency edges. -/
inductive Reach (adj : List (List Nat)) : Nat → Nat → Prop
  | refl (u : Nat) : Reach adj u u
  | step {u v w : Nat} : Reach adj u v → w ∈ nbrs adj v → Reach adj u w

/-- Reachability through unvisited vertices only (all vertices on the
path, endpoints included, carry the `-1` sentinel in `r`). -/
inductive RU (adj : List (List Nat)) (r : List Int) : Nat → Nat → Prop
  | refl (u : Nat) : r.getD u 0 = -1 → RU adj r u u
  | step {u v w : Nat} : RU adj r u v → w ∈ nbrs adj v →
      r.getD w 0 = -1 → RU adj r u w

/-- One visit changes an entry only from `-1` to `now`. -/
def MarkedRel (now : Int) (a b : Int) : Prop := b = a ∨ (a = -1 ∧ b = now)

theorem markedRel_refl (now a : Int) : MarkedRel now a a := Or.inl rfl

theorem markedRel_trans (now : Int) (hnow : now ≠ -1) (a b c : Int)
    (h1 : MarkedRel now a b) (h2 : MarkedRel now b c) : MarkedRel now a c := by
  rcases h1 with h1 | ⟨ha, hb⟩
  · rcases h2 with h2 | ⟨hb', hc⟩
    · exact Or.inl (h2.trans h1)
    · exact Or.inr ⟨h1 ▸ hb', hc⟩
  · rcases h2 with h2 | ⟨hb', hc⟩
    · exact Or.inr ⟨ha, h2.trans hb⟩
    · rw [hb] at hb'
      exact absurd hb' hnow

theorem markedRel_keep (now a b : Int) (h : MarkedRel now a b)
    (ha : a ≠ -1) : b = a := by
  rcases h with h | ⟨ha', _⟩
  · exact h
  · exact absurd ha' ha

theorem forall₂_marked_trans (now : Int) (hnow : now ≠ -1)
    (r r' r'' : List Int) (h1 : List.Forall₂ (MarkedRel now) r r')
    (h2 : List.Forall₂ (MarkedRel now) r' r'') :
    List.Forall₂ (MarkedRel now) r r'' := by
  induction h1 generalizing r'' with
  | nil =>
    cases h2
    exact List.Forall₂.nil
  | cons hR hrest ih =>
    cases h2 with
    | cons hR2 hrest2 =>
      exact List.Forall₂.cons (markedRel_trans now hnow _ _ _ hR hR2) (ih _ hrest2)

theorem forall₂_getD {R : Int → Int → Prop} (l l' : List Int)
    (h : List.Forall₂ R l l') (i : Nat) (hi : i < l.length) (d d' : Int) :
    R (l.getD i d) (l'.getD i d') := by
  induction h generalizing i with
  | nil => simp at hi
  | cons hR hrest ih =>
    cases i with
    | zero => exact hR
    | succ i => exact ih i (by simpa using hi)

theorem getD_set_int (r : List Int) (k x : Nat) (a d : Int) :
    (r.set k a).getD x d = if k = x ∧ k < r.length then a else r.getD x d := by
  rw [List.getD_eq_getElem?_getD, List.getD_eq_getElem?_getD, List.getElem?_set]
  by_cases hkx : k = x
  · subst hkx
    by_cases hkl : k < r.length
    · simp [hkl]
    · simp [hkl, List.getElem?_eq_none (by omega : r.length ≤ k)]
  · simp [hkx]

theorem forall₂_marked_set (now : Int) (r : List Int) (k : Nat)
    (hk : r.getD k 0 = -1) :
    List.Forall₂ (MarkedRel now) r (r.set k now) := by
  induction r generalizing k with
  | nil => exact List.Forall₂.nil
  | cons a t ih =>
    cases k with
    | zero =>
      refine List.Forall₂.cons (Or.inr ⟨hk, rfl⟩) ?_
      exact List.forall₂_same.mpr (fun x _ => markedRel_refl now x)
    | succ k =>
      refine List.Forall₂.cons (markedRel_refl now a) ?_
      exact ih k hk

theorem count_le_of_marked (now : Int) (hnow : now ≠ -1) (r r' : List Int)
    (h : List.Forall₂ (MarkedRel now) r r') :
    r'.count (-1) ≤ r.count (-1) := by
  induction h with
  | nil => exact Nat.le_refl 0
  | cons hR hrest ih =>
    simp only [List.count_cons]
    rcases hR with h1 | ⟨ha, hb⟩
    · rw [h1]
      omega
    · rw [ha, hb]
      simp only [hnow, beq_self_eq_true, if_true, beq_iff_eq, if_neg hnow,
        if_false]
      omega

theorem count_set_unvisited (r : List Int) (k : Nat) (now : Int)
    (hnow : now ≠ -1) (hk : k < r.length) (hv : r.getD k 0 = -1) :
    (r.set k now).count (-1) + 1 = r.count (-1) := by
  induction r generalizing k with
  | nil => simp at hk
  | cons a t ih =>
    cases k with
    | zero =>
      have ha : a = -1 := hv
      subst ha
      show ((now :: t).count (-1)) + 1 = ((-1 : Int) :: t).count (-1)
      simp only [List.count_cons]
      simp only [beq_self_eq_true, if_true, beq_iff_eq, if_neg hnow]
    | succ k =>
      have hv' : t.getD k 0 = -1 := hv
      have hk' : k < t.length := by simpa using hk
      show ((a :: t.set k now).count (-1)) + 1 = ((a :: t).count (-1))
      simp only [List.count_cons]
      have := ih k hk' hv'
      omega

theorem count_pos_of_getD (r : List Int) (k : Nat) (hk : k < r.length)
    (hv : r.getD k 0 = -1) : 1 ≤ r.count (-1) := by
  induction r generalizing k with
  | nil => simp at hk
  | cons a t ih =>
    cases k with
    | zero =>
      have ha : a = -1 := hv
      subst ha
      simp [List.count_cons]
    | succ k =>
      have := ih k (by simpa using hk) hv
      simp only [List.count_cons]
      omega

theorem RU_start_unvisited (adj : List (List Nat)) (r : List Int)
    (u v : Nat) (h : RU adj r u v) : r.getD u 0 = -1 := by
  induction h with
  | refl hu => exact hu
  | step _ _ _ ih => exact ih

theorem RU_end_unvisited (adj : List (List Nat)) (r : List Int)
    (u v : Nat) (h : RU adj r u v) : r.getD v 0 = -1 := by
  cases h with
  | refl hu => exact hu
  | step _ _ hw => exact hw

theorem RU_trans (adj : List (List Nat)) (r : List Int) (u v w : Nat)
    (h1 : RU adj r u v) (h2 : RU adj r v w) : RU adj r u w := by
  induction h2 with
  | refl _ => exact h1
  | step _ hmem hunv ih => exact RU.step ih hmem hunv

theorem RU_mono (adj : List (List Nat)) (r r' : List Int) (u v : Nat)
    (hmono : ∀ y, r'.getD y 0 = -1 → r.getD y 0 = -1)
    (h : RU adj r' u v) : RU adj r u v := by
  induction h with
  | refl hu => exact RU.refl _ (hmono _ hu)
  | step _ hmem hunv ih => exact RU.step ih hmem (hmono _ hunv)

theorem RU_to_Reach (adj : List (List Nat)) (r : List Int) (u v : Nat)
    (h : RU adj r u v) : Reach adj u v := by
  induction h with
  | refl => exact Reach.refl _
  | step _ hmem _ ih => exact Reach.step ih hmem

theorem Reach_trans (adj : List (List Nat)) (u v w : Nat)
    (h1 : Reach adj u v) (h2 : Reach adj v w) : Reach adj u w := by
  induction h2 with
  | refl => exact h1
  | step _ hmem ih => exact Reach.step ih hmem

theorem Reach_lt (adj : List (List Nat)) (hadj : AdjOk adj) (u v : Nat)
    (hu : u < adj.length) (h : Reach adj u v) : v < adj.length := by
  induction h with
  | refl => exact hu
  | step _ hmem ih => exact hadj _ ih _ hmem

theorem Reach_symm (adj : List (List Nat)) (hadj : AdjOk adj)
    (hsym : SymmAdj adj) (u v : Nat) (hu : u < adj.length)
    (h : Reach adj u v) : Reach adj v u := by
  induction h with
  | refl => exact Reach.refl u
  | step hr hmem ih =>
    rename_i a b
    have ha : a < adj.length := Reach_lt adj hadj u a hu hr
    have hback : a ∈ nbrs adj b := hsym a ha b hmem
    exact Reach_trans adj b a u (Reach.step (Reach.refl b) hback) ih

/-- Master specification of `_visit_for_depth_first_search`: with fuel
at least the number of unvisited entries, visiting an unvisited
in-range vertex `k` with a fresh nonnegative label `now`
(a) only turns `-1` entries into `now`, (b) labels `k`, (c) labels only
vertices reachable from `k` through unvisited vertices, and (d) leaves
every neighbor of every newly labeled vertex visited. -/
theorem visit_spec (adj : List (List Nat)) (hadj : AdjOk adj) (now : Int)
    (hnow : 0 ≤ now) :
    ∀ f r k, r.length = adj.length → k < adj.length →
      r.getD k 0 = -1 → r.count (-1) ≤ f →
      List.Forall₂ (MarkedRel now) r (visit adj f r now k) ∧
      (visit adj f r now k).getD k 0 = now ∧
      (∀ x, (visit adj f r now k).getD x 0 ≠ r.getD x 0 → RU adj r k x) ∧
      (∀ x, (visit adj f r now k).getD x 0 ≠ r.getD x 0 →
        ∀ y ∈ nbrs adj x, (visit adj f r now k).getD y 0 ≠ -1) := by
  have hnow' : now ≠ -1 := by omega
  intro f
  induction f with
  | zero =>
    intro r k hlen hk hkv hcnt
    have hpos := count_pos_of_getD r k (by omega) hkv
    exact absurd hpos (by omega)
  | succ f ih =>
    intro r k hlen hk hkv hcnt
    have hklen : k < r.length := by omega
    have hr0len : (r.set k now).length = adj.length := by
      rw [List.length_set]; exact hlen
    have hm0 : List.Forall₂ (MarkedRel now) r (r.set k now) :=
      forall₂_marked_set now r k hkv
    have hr0k : (r.set k now).getD k 0 = now := by
      rw [getD_set_int, if_pos ⟨rfl, hklen⟩]
    have hr0cnt : (r.set k now).count (-1) + 1 = r.count (-1) :=
      count_set_unvisited r k now hnow' hklen hkv
    have hunv0 : ∀ y, (r.set k now).getD y 0 = -1 →
        r.getD y 0 = -1 ∧ y ≠ k := by
      intro y hy
      by_cases hyk : y = k
      · subst hyk
        rw [hr0k] at hy
        exact absurd hy hnow'
      · rw [getD_set_int, if_neg (fun hc => hyk hc.1.symm)] at hy
        exact ⟨hy, hyk⟩
    have hchange_lt : ∀ a b : List Int, a.length = adj.length →
        b.length = adj.length → ∀ z : Nat,
        a.getD z 0 ≠ b.getD z 0 → z < adj.length := by
      intro a b ha hb z hz
      by_contra hge
      push_neg at hge
      rw [List.getD_eq_default a 0 (by omega),
        List.getD_eq_default b 0 (by omega)] at hz
      exact hz rfl
    have hunv_acc : ∀ racc : List Int, racc.length = adj.length →
        List.Forall₂ (MarkedRel now) (r.set k now) racc →
        ∀ y, racc.getD y 0 = -1 → r.getD y 0 = -1 ∧ y ≠ k := by
      intro racc hal hfa y hy
      have hylt : y < adj.length := by
        by_contra hge
        push_neg at hge
        rw [List.getD_eq_default racc 0 (by omega)] at hy
        exact absurd hy (by omega)
      have hmr := forall₂_getD (r.set k now) racc hfa y (by omega) 0 0
      have h0 : (r.set k now).getD y 0 = -1 := by
        rcases hmr with h | ⟨ha, hb⟩
        · rw [← h]; exact hy
        · rw [hb] at hy
          exact absurd hy hnow'
      exact hunv0 y h0
    have hfold : ∀ l : List Nat, (∀ x ∈ l, x ∈ nbrs adj k) →
        ∀ racc : List Int, racc.length = adj.length →
        List.Forall₂ (MarkedRel now) (r.set k now) racc →
        (∀ x, racc.getD x 0 ≠ r.getD x 0 → x ≠ k → RU adj r k x) →
        (∀ x, racc.getD x 0 ≠ r.getD x 0 → x ≠ k →
          ∀ y ∈ nbrs adj x, racc.getD y 0 ≠ -1) →
        List.Forall₂ (MarkedRel now) racc
          (l.foldl (fun r2 x => if r2.getD x 0 = -1
            then visit adj f r2 now x else r2) racc) ∧
        (∀ x, (l.foldl (fun r2 x => if r2.getD x 0 = -1
            then visit adj f r2 now x else r2) racc).getD x 0 ≠ r.getD x 0 →
          x ≠ k → RU adj r k x) ∧
        (∀ x, (l.foldl (fun r2 x => if r2.getD x 0 = -1
            then visit adj f r2 now x else r2) racc).getD x 0 ≠ r.getD x 0 →
          x ≠ k → ∀ y ∈ nbrs adj x,
            (l.foldl (fun r2 x => if r2.getD x 0 = -1
              then visit adj f r2 now x else r2) racc).getD y 0 ≠ -1) ∧
        (∀ y ∈ l, (l.foldl (fun r2 x => if r2.getD x 0 = -1
            then visit adj f r2 now x else r2) racc).getD y 0 ≠ -1) := by
      intro l
      induction l with
      | nil =>
        intro _ racc hal hfa hC hD
        refine ⟨List.forall₂_same.mpr (fun x _ => markedRel_refl now x),
          hC, hD, ?_⟩
        intro y hy
        simp at hy
      | cons x l' ihl =>
        intro hsub racc hal hfa hC hD
        have hx_nbr : x ∈ nbrs adj k := hsub x (List.mem_cons_self x l')
        have hxlen : x < adj.length := hadj k hk x hx_nbr
        simp only [List.foldl_cons]
        by_cases hxv : racc.getD x 0 = -1
        · rw [if_pos hxv]
          have hcnt1 : racc.count (-1) ≤ f := by
            have h1 := count_le_of_marked now hnow' (r.set k now) racc hfa
            omega
          obtain ⟨Ac, Bc, Cc, Dc⟩ := ih racc x hal hxlen hxv hcnt1
          have hlen1 : (visit adj f racc now x).length = adj.length := by
            rw [← Ac.length_eq]
            exact hal
          have hfa1 : List.Forall₂ (MarkedRel now) (r.set k now)
              (visit adj f racc now x) :=
            forall₂_marked_trans now hnow' _ _ _ hfa Ac
          have hrx : r.getD x 0 = -1 := (hunv_acc racc hal hfa x hxv).1
          have hRUkx : RU adj r k x :=
            RU.step (RU.refl k hkv) hx_nbr hrx
          have hC1 : ∀ z, (visit adj f racc now x).getD z 0 ≠ r.getD z 0 →
              z ≠ k → RU adj r k z := by
            intro z hz hzk
            by_cases hch : (visit adj f racc now x).getD z 0 = racc.getD z 0
            · rw [hch] at hz
              exact hC z hz hzk
            · have hRU1 : RU adj racc x z := Cc z hch
              have hRU2 : RU adj r x z := RU_mono adj r racc x z
                (fun y hy => (hunv_acc racc hal hfa y hy).1) hRU1
              exact RU_trans adj r k x z hRUkx hRU2
          have hD1 : ∀ z, (visit adj f racc now x).getD z 0 ≠ r.getD z 0 →
              z ≠ k → ∀ y ∈ nbrs adj z,
                (visit adj f racc now x).getD y 0 ≠ -1 := by
            intro z hz hzk y hy
            by_cases hch : (visit adj f racc now x).getD z 0 = racc.getD z 0
            · rw [hch] at hz
              have hyl : y < adj.length :=
                hadj z (hchange_lt racc r hal (by omega) z hz) y hy
              have hkeep := forall₂_getD racc (visit adj f racc now x) Ac y
                (by omega) 0 0
              have hold := hD z hz hzk y hy
              intro hcon
              rcases hkeep with h | ⟨ha, hb⟩
              · rw [hcon] at h
                exact hold h.symm
              · rw [hb] at hcon
                exact hnow' hcon
            · exact Dc z hch y hy
          obtain ⟨h1', h2', h3', h4'⟩ := ihl
            (fun w hw => hsub w (List.mem_cons_of_mem x hw))
            (visit adj f racc now x) hlen1 hfa1 hC1 hD1
          refine ⟨forall₂_marked_trans now hnow' _ _ _ Ac h1', h2', h3', ?_⟩
          intro y hy
          rcases List.mem_cons.mp hy with hyx | hyl'
          · rw [hyx]
            have hkeep := forall₂_getD (visit adj f racc now x) _ h1' x
              (by omega) 0 0
            intro hcon
            rcases hkeep with h | ⟨ha, hb⟩
            · rw [hcon] at h
              rw [← h] at Bc
              exact hnow' Bc.symm
            · rw [Bc] at ha
              exact hnow' ha
          · exact h4' y hyl'
        · rw [if_neg hxv]
          obtain ⟨h1', h2', h3', h4'⟩ := ihl
            (fun w hw => hsub w (List.mem_cons_of_mem x hw))
            racc hal hfa hC hD
          refine ⟨h1', h2', h3', ?_⟩
          intro y hy
          rcases List.mem_cons.mp hy with hyx | hyl'
          · rw [hyx]
            have hkeep := forall₂_getD racc _ h1' x (by omega) 0 0
            intro hcon
            rcases hkeep with h | ⟨ha, hb⟩
            · rw [hcon] at h
              exact hxv h.symm
            · rw [hb] at hcon
              exact hnow' hcon
          · exact h4' y hyl'
    have hvisit_eq : visit adj (f + 1) r now k
        = (nbrs adj k).foldl (fun r2 x => if r2.getD x 0 = -1
            then visit adj f r2 now x else r2) (r.set k now) := rfl
    obtain ⟨g1, g2, g3, g4⟩ := hfold (nbrs adj k) (fun x hx => hx)
      (r.set k now) hr0len
      (List.forall₂_same.mpr (fun x _ => markedRel_refl now x))
      (by
        intro x hx hxk
        exfalso
        rw [getD_set_int, if_neg (fun hc => hxk hc.1.symm)] at hx
        exact hx rfl)
      (by
        intro x hx hxk
        exfalso
        rw [getD_set_int, if_neg (fun hc => hxk hc.1.symm)] at hx
        exact hx rfl)
    rw [hvisit_eq]
    set rfin := (nbrs adj k).foldl (fun r2 x => if r2.getD x 0 = -1
      then visit adj f r2 now x else r2) (r.set k now) with hrfin
    have hfinfa : List.Forall₂ (MarkedRel now) r rfin :=
      forall₂_marked_trans now hnow' _ _ _ hm0 g1
    have hfink : rfin.getD k 0 = now := by
      have hkeep := forall₂_getD (r.set k now) rfin g1 k (by omega) 0 0
      rcases hkeep with h | ⟨ha, hb⟩
      · rw [h]
        exact hr0k
      · rw [hr0k] at ha
        exact absurd ha hnow'
    refine ⟨hfinfa, hfink, ?_, ?_⟩
    · intro x hx
      by_cases hxk : x = k
      · subst hxk
        exact RU.refl x hkv
      · exact g2 x hx hxk
    · intro x hx y hy
      by_cases hxk : x = k
      · subst hxk
        exact g4 y hy
      · exact g3 x hx hxk y hy

/-- Entries that were already labeled are untouched by a marked pass. -/
theorem marked_keep_getD (now : Int) (r r' : List Int)
    (h : List.Forall₂ (MarkedRel now) r r') (x : Nat)
    (hx : r.getD x 0 ≠ -1) : r'.getD x 0 = r.getD x 0 := by
  by_cases hxl : x < r.length
  · have hm := forall₂_getD r r' h x hxl 0 0
    rcases hm with h1 | ⟨ha, hb⟩
    · exact h1
    · exact absurd ha hx
  · rw [List.getD_eq_default r 0 (by omega),
      List.getD_eq_default r' 0 (by rw [← h.length_eq]; omega)]

/-- Labels propagate along still-unvisited paths: once the start of an
unvisited path is labeled by `visit`, so is its end. -/
theorem visit_prop (adj : List (List Nat)) (hadj : AdjOk adj) (now : Int)
    (hnow : 0 ≤ now) (f : Nat) (r : List Int) (k : Nat)
    (hlen : r.length = adj.length) (hk : k < adj.length)
    (hkv : r.getD k 0 = -1) (hcnt : r.count (-1) ≤ f) :
    ∀ x, RU adj r k x → (visit adj f r now k).getD x 0 ≠ -1 := by
  obtain ⟨hA, hB, hC, hD⟩ := visit_spec adj hadj now hnow f r k hlen hk hkv hcnt
  have hstep : ∀ u v, RU adj r u v →
      (visit adj f r now k).getD u 0 ≠ -1 →
      (visit adj f r now k).getD v 0 ≠ -1 := by
    intro u v h
    induction h with
    | refl hu => exact fun hh => hh
    | step h1 hmem hunv ih =>
      intro hu
      rename_i a b
      have hvv := ih hu
      have hra : r.getD a 0 = -1 := RU_end_unvisited adj r u a h1
      have hch : (visit adj f r now k).getD a 0 ≠ r.getD a 0 := by
        rw [hra]
        exact hvv
      exact hD a hch b hmem
  intro x hx
  have hkk : (visit adj f r now k).getD k 0 ≠ -1 := by
    rw [hB]
    omega
  exact hstep k x hx hkk

/-- With a fresh label, a vertex carries `now` after the visit exactly
when it was reachable from the seed through unvisited vertices. -/
theorem visit_now_iff (adj : List (List Nat)) (hadj : AdjOk adj) (now : Int)
    (hnow : 0 ≤ now) (f : Nat) (r : List Int) (k : Nat)
    (hlen : r.length = adj.length) (hk : k < adj.length)
    (hkv : r.getD k 0 = -1) (hcnt : r.count (-1) ≤ f)
    (hfresh : ∀ x, x < r.length → r.getD x 0 ≠ now) :
    ∀ x, x < adj.length →
      ((visit adj f r now k).getD x 0 = now ↔ RU adj r k x) := by
  obtain ⟨hA, hB, hC, hD⟩ := visit_spec adj hadj now hnow f r k hlen hk hkv hcnt
  intro x hx
  constructor
  · intro hxn
    by_cases hch : (visit adj f r now k).getD x 0 = r.getD x 0
    · exfalso
      rw [hxn] at hch
      exact hfresh x (by omega) hch.symm
    · exact hC x hch
  · intro hRU
    have hne := visit_prop adj hadj now hnow f r k hlen hk hkv hcnt x hRU
    have hrx : r.getD x 0 = -1 := RU_end_unvisited adj r k x hRU
    rcases forall₂_getD r _ hA x (by omega) 0 0 with h | ⟨ha, hb⟩
    · exact absurd (h.trans hrx) hne
    · exact hb

/-- The state of `depth_first_search` after scanning the first `i`
vertices of the outer loop. -/
def dfsAt (adj : List (List Nat)) (i : Nat) : Int × List Int :=
  (List.range i).foldl
    (fun st j =>
      if st.2.getD j 0 = -1 then
        (st.1 + 1, visit adj adj.length st.2 (st.1 + 1) j)
      else st)
    (-1, (List.replicate adj.length (-1) : List Int))

theorem dfsAt_full (adj : List (List Nat)) :
    depth_first_search adj = dfsAt adj adj.length := rfl

theorem dfsAt_zero (adj : List (List Nat)) :
    dfsAt adj 0 = (-1, (List.replicate adj.length (-1) : List Int)) := by
  unfold dfsAt
  rw [List.range_zero]
  rfl

theorem dfsAt_succ (adj : List (List Nat)) (i : Nat) :
    dfsAt adj (i + 1) =
      (if (dfsAt adj i).2.getD i 0 = -1 then
        ((dfsAt adj i).1 + 1,
          visit adj adj.length (dfsAt adj i).2 ((dfsAt adj i).1 + 1) i)
      else dfsAt adj i) := by
  unfold dfsAt
  rw [List.range_succ, List.foldl_append]
  rfl

theorem dfsAt_succ_hit_fst (adj : List (List Nat)) (i : Nat)
    (h : (dfsAt adj i).2.getD i 0 = -1) :
    (dfsAt adj (i + 1)).1 = (dfsAt adj i).1 + 1 := by
  rw [dfsAt_succ, if_pos h]

theorem dfsAt_succ_hit_snd (adj : List (List Nat)) (i : Nat)
    (h : (dfsAt adj i).2.getD i 0 = -1) :
    (dfsAt adj (i + 1)).2
      = visit adj adj.length (dfsAt adj i).2 ((dfsAt adj i).1 + 1) i := by
  rw [dfsAt_succ, if_pos h]

theorem dfsAt_succ_miss (adj : List (List Nat)) (i : Nat)
    (h : ¬ (dfsAt adj i).2.getD i 0 = -1) :
    dfsAt adj (i + 1) = dfsAt adj i := by
  rw [dfsAt_succ, if_neg h]

/-- Outer-loop invariant of `depth_first_search` on a symmetric in-range
adjacency list: after scanning `i` vertices the label array keeps its
length, the counter stays at least `-1`, scanned vertices are labeled,
labels are `-1` or lie in `[0, counter]`, equal non-blank labels imply
reachability, labels agree across edges, and every label in
`[0, counter]` is in use. -/
theorem dfsAt_inv (adj : List (List Nat)) (hadj : AdjOk adj)
    (hsym : SymmAdj adj) :
    ∀ i, i ≤ adj.length →
      (dfsAt adj i).2.length = adj.length ∧
      -1 ≤ (dfsAt adj i).1 ∧
      (∀ v < i, (dfsAt adj i).2.getD v 0 ≠ -1) ∧
      (∀ v < adj.length, (dfsAt adj i).2.getD v 0 = -1 ∨
        (0 ≤ (dfsAt adj i).2.getD v 0 ∧
          (dfsAt adj i).2.getD v 0 ≤ (dfsAt adj i).1)) ∧
      (∀ u < adj.length, ∀ v < adj.length,
        (dfsAt adj i).2.getD u 0 ≠ -1 →
        (dfsAt adj i).2.getD u 0 = (dfsAt adj i).2.getD v 0 →
        Reach adj u v) ∧
      (∀ u < adj.length, (dfsAt adj i).2.getD u 0 ≠ -1 →
        ∀ v ∈ nbrs adj u,
          (dfsAt adj i).2.getD v 0 = (dfsAt adj i).2.getD u 0) ∧
      (∀ c : Int, 0 ≤ c → c ≤ (dfsAt adj i).1 →
        ∃ v, v < adj.length ∧ (dfsAt adj i).2.getD v 0 = c) := by
  intro i
  induction i with
  | zero =>
    intro _
    rw [dfsAt_zero]
    have hrep : ∀ v, v < adj.length →
        ((List.replicate adj.length (-1 : Int))).getD v 0 = -1 := by
      intro v hv
      rw [List.getD_eq_getElem?_getD, List.getElem?_replicate]
      simp [hv]
    refine ⟨List.length_replicate _ _, le_refl _, ?_, ?_, ?_, ?_, ?_⟩
    · intro v hv
      exact absurd hv (Nat.not_lt_zero v)
    · intro v hv
      exact Or.inl (hrep v hv)
    · intro u hu v hv hne heq
      exact absurd (hrep u hu) hne
    · intro u hu hne v hvmem
      exact absurd (hrep u hu) hne
    · intro c hc0 hcle
      exfalso
      omega
  | succ i ih =>
    intro hi1
    have hiN : i < adj.length := by omega
    obtain ⟨h1, h2, h3, h4, h5, h6, h7⟩ := ih (by omega)
    by_cases hiv : (dfsAt adj i).2.getD i 0 = -1
    · rw [dfsAt_succ_hit_fst adj i hiv, dfsAt_succ_hit_snd adj i hiv]
      set r := (dfsAt adj i).2 with hrdef
      set now := (dfsAt adj i).1 with hnowdef
      have hnow0 : (0 : Int) ≤ now + 1 := by omega
      have hcnt : r.count (-1) ≤ adj.length := by
        have hc := List.count_le_length (-1 : Int) r
        omega
      obtain ⟨A, B, C, D⟩ := visit_spec adj hadj (now + 1) hnow0
        adj.length r i h1 hiN hiv hcnt
      have hfresh : ∀ x, x < r.length → r.getD x 0 ≠ now + 1 := by
        intro x hx
        rcases h4 x (by omega) with h | ⟨h0, hle⟩
        · omega
        · omega
      have hiff := visit_now_iff adj hadj (now + 1) hnow0 adj.length r i
        h1 hiN hiv hcnt hfresh
      have hkeep : ∀ x, r.getD x 0 ≠ -1 →
          (visit adj adj.length r (now + 1) i).getD x 0 = r.getD x 0 :=
        fun x hx => marked_keep_getD (now + 1) r _ A x hx
      have hchar : ∀ x, x < adj.length →
          (visit adj adj.length r (now + 1) i).getD x 0 = r.getD x 0 ∨
          (r.getD x 0 = -1 ∧
            (visit adj adj.length r (now + 1) i).getD x 0 = now + 1) :=
        fun x hx => forall₂_getD r _ A x (by omega) 0 0
      refine ⟨by rw [← A.length_eq]; exact h1, by omega, ?_, ?_, ?_, ?_, ?_⟩
      · intro v hv
        have hvcase : v < i ∨ v = i := by omega
        rcases hvcase with hvi | hvi
        · have hvne := h3 v hvi
          rw [hkeep v hvne]
          exact hvne
        · subst hvi
          rw [B]
          omega
      · intro v hv
        rcases hchar v hv with hch | ⟨ha, hb⟩
        · rcases h4 v hv with h | ⟨h0, hle⟩
          · exact Or.inl (by rw [hch]; exact h)
          · exact Or.inr ⟨by rw [hch]; exact h0, by rw [hch]; omega⟩
        · exact Or.inr ⟨by rw [hb]; omega, by rw [hb]⟩
      · intro u hu v hv hune heq
        by_cases huN : (visit adj adj.length r (now + 1) i).getD u 0 = now + 1
        · have hRUu : RU adj r i u := (hiff u hu).mp huN
          have hRUv : RU adj r i v := (hiff v hv).mp (by rw [← heq]; exact huN)
          have hui : Reach adj u i :=
            Reach_symm adj hadj hsym i u hiN (RU_to_Reach adj r i u hRUu)
          exact Reach_trans adj u i v hui (RU_to_Reach adj r i v hRUv)
        · have hu' : (visit adj adj.length r (now + 1) i).getD u 0
              = r.getD u 0 := by
            rcases hchar u hu with h | ⟨ha, hb⟩
            · exact h
            · exact absurd hb huN
          have hv' : (visit adj adj.length r (now + 1) i).getD v 0
              = r.getD v 0 := by
            rcases hchar v hv with h | ⟨ha, hb⟩
            · exact h
            · rw [← heq] at hb
              exact absurd hb huN
          rw [hu'] at hune heq
          rw [hv'] at heq
          exact h5 u hu v hv hune heq
      · intro u hu hune v hvmem
        have hvN : v < adj.length := hadj u hu v hvmem
        by_cases huN : (visit adj adj.length r (now + 1) i).getD u 0 = now + 1
        · have hRUu : RU adj r i u := (hiff u hu).mp huN
          have hru : r.getD u 0 = -1 := RU_end_unvisited adj r i u hRUu
          by_cases hrv : r.getD v 0 = -1
          · have hRUv : RU adj r i v := RU.step hRUu hvmem hrv
            rw [(hiff v hvN).mpr hRUv, huN]
          · exfalso
            have humem : u ∈ nbrs adj v := hsym u hu v hvmem
            have heqv := h6 v hvN hrv u humem
            rw [heqv] at hru
            exact hrv hru
        · have hu' : (visit adj adj.length r (now + 1) i).getD u 0
              = r.getD u 0 := by
            rcases hchar u hu with h | ⟨ha, hb⟩
            · exact h
            · exact absurd hb huN
          have hruv : r.getD u 0 ≠ -1 := by
            rw [← hu']
            exact hune
          have heqv := h6 u hu hruv v hvmem
          have hrvne : r.getD v 0 ≠ -1 := by
            rw [heqv]
            exact hruv
          rw [hkeep v hrvne, heqv, ← hu']
      · intro c hc0 hcle
        by_cases hcn : c = now + 1
        · exact ⟨i, hiN, by rw [B, hcn]⟩
        · obtain ⟨v, hv, hvc⟩ := h7 c hc0 (by omega)
          have hvne : r.getD v 0 ≠ -1 := by
            rw [hvc]
            omega
          exact ⟨v, hv, by rw [hkeep v hvne]; exact hvc⟩
    · rw [dfsAt_succ_miss adj i hiv]
      refine ⟨h1, h2, ?_, h4, h5, h6, h7⟩
      intro v hv
      have hvcase : v < i ∨ v = i := by omega
      rcases hvcase with hvi | hvi
      · exact h3 v hvi
      · subst hvi
        exact hiv

/-- End-to-end partition property of the labeler on symmetric in-range
adjacency: length preserved, labels cover exactly `[0, count)`, and
labels agree precisely on mutually reachable vertices. -/
theorem dfs_partition (adj : List (List Nat)) (hadj : AdjOk adj)
    (hsym : SymmAdj adj) :
    (dfs_labels adj).length = adj.length ∧
    (∀ v < adj.length, 0 ≤ (dfs_labels adj).getD v 0 ∧
      (dfs_labels adj).getD v 0 < dfs_count adj) ∧
    (∀ c : Int, 0 ≤ c → c < dfs_count adj →
      ∃ v, v < adj.length ∧ (dfs_labels adj).getD v 0 = c) ∧
    (∀ u < adj.length, ∀ v < adj.length,
      ((dfs_labels adj).getD u 0 = (dfs_labels adj).getD v 0 ↔
        Reach adj u v)) := by
  obtain ⟨h1, h2, h3, h4, h5, h6, h7⟩ :=
    dfsAt_inv adj hadj hsym adj.length (le_refl _)
  have hlab : dfs_labels adj = (dfsAt adj adj.length).2 := rfl
  have hcount : dfs_count adj = (dfsAt adj adj.length).1 + 1 := rfl
  rw [hlab, hcount]
  have hback : ∀ u v, Reach adj u v → u < adj.length →
      (dfsAt adj adj.length).2.getD v 0
        = (dfsAt adj adj.length).2.getD u 0 := by
    intro u v h
    induction h with
    | refl => intro _; rfl
    | step hr hmem ih =>
      intro hu
      rename_i a b
      have haN : a < adj.length := Reach_lt adj hadj u a hu hr
      have hlne : (dfsAt adj adj.length).2.getD a 0 ≠ -1 := h3 a haN
      rw [h6 a haN hlne b hmem]
      exact ih hu
  refine ⟨h1, ?_, ?_, ?_⟩
  · intro v hv
    rcases h4 v hv with h | ⟨h0, hle⟩
    · exact absurd h (h3 v hv)
    · exact ⟨h0, by omega⟩
  · intro c hc0 hclt
    exact h7 c hc0 (by omega)
  · intro u hu v hv
    constructor
    · intro heq
      exact h5 u hu v hv (h3 u hu) heq
    · intro h
      exact (hback u v h hu).symm

theorem wrapIdx_error (n : Nat) (i : Int) (err : UFErr)
    (h : wrapIdx n i = Except.error err) : err = UFErr.idxErr := by
  unfold wrapIdx at h
  split at h
  · cases h
  · split at h
    · cases h
    · cases h
      rfl

/-- C1: Scenario 3 diverges from the code.  On the engine built from
`[0,0,0,3,3,3,9,7,9,4,8]` with no size table yet, `weighted_union(2,7)`
with the default compression settings does not complete: the rebuild
branch calls `self.find_root(..., pc_type=...)`, a keyword `find_root`
does not take, so Python raises `TypeError`.  With that keyword repaired
the run produces exactly the mapping and size table the scenario
describes: `[0,0,0,3,3,3,3,0,3,3,3]` with root 0 of size 4 and root 3 of
size 7. -/
theorem c1_scenario3_weighted_union :
    build_weighted_quick_union
        { id := exGraph
          roots := none
          size := none } 2 7 true PCType.path_halving
      = Except.error UFErr.typeErr ∧
    build_weighted_quick_union
        { id := exGraph
          roots := none
          size := none } 2 7 false PCType.path_halving
      = Except.error UFErr.typeErr ∧
    build_weighted_quick_union_fixed
        { id := exGraph
          roots := none
          size := none } 2 7 true PCType.path_halving
      = Except.ok
          { id := [0, 0, 0, 3, 3, 3, 3, 0, 3, 3, 3]
            roots := some [0, 0, 0, 3, 3, 3, 3, 0, 3, 3, 3]
            size := some [(0, 4), (3, 7)] } :=
  ⟨rfl, rfl, rfl⟩

/-- A batch union can break the forest invariant: uniting `[1,4]` with
`[5,2]` on the docstring forest writes `id[0] := 3` and `id[3] := 0`,
a two-cycle between the old roots. -/
theorem c2_batch_union_cycle :
    ValidForest exGraph ∧
    (∀ v ∈ [1, 4], v < exGraph.length) ∧
    (∀ v ∈ [5, 2], v < exGraph.length) ∧
    ¬ ValidForest
      (build_quick_union exGraph [1, 4] [5, 2] false PCType.path_halving) := by
  decide

/-- C2 (amended): every root lookup (plain or compressing, with the
public scatter-back) preserves the forest invariant; the batch union
preserves it when no main root of the batch equals a minor root that
actually gets reassigned — in particular for every single pair — and a
weighted union that completes preserves it.  Unrestricted batches can
create cycles, as the counterexample above shows. -/
theorem c2_forest_preservation (s : List Nat) (hs : ValidForest s) :
    (∀ els pc mode, (∀ v ∈ els, v < s.length) →
      ValidForest (find_root s els pc mode)) ∧
    (∀ vs mode, (∀ v ∈ vs, v < s.length) →
      ValidForest (root_path_compression s vs mode).1) ∧
    (∀ minor main pc mode, (∀ v ∈ minor, v < s.length) →
      (∀ v ∈ main, v < s.length) →
      (∀ q ∈ (minor.map (rootOf s)).zip (main.map (rootOf s)),
        ∀ q' ∈ (minor.map (rootOf s)).zip (main.map (rootOf s)),
          q'.1 ≠ q'.2 → q.2 ≠ q'.1) →
      ValidForest (build_quick_union s minor main pc mode)) ∧
    (∀ a b pc mode, a < s.length → b < s.length →
      ValidForest (build_quick_union s [a] [b] pc mode)) ∧
    (∀ e : UFState, e.id = s →
      ∀ minor main pc mode e', minor < s.length → main < s.length →
        build_weighted_quick_union e minor main pc mode = Except.ok e' →
        ValidForest e'.id) := by
  refine ⟨?_, ?_, ?_, ?_, ?_⟩
  · intro els pc mode hv
    exact (find_root_pres s els pc mode hs hv).1
  · intro vs mode hv
    exact (root_path_compression_spec s vs mode hs hv).2.1
  · intro minor main pc mode hm hn hdisj
    exact (union_batch_valid s minor main pc mode hs hm hn hdisj).1
  · intro a b pc mode ha hb
    exact (union_single_pair s a b pc mode hs ha hb).1
  · intro e he minor main pc mode e' hm hn hok
    exact (build_weighted_ok e minor main pc mode (by rw [he]; exact hs)
      (by rw [he]; exact hm) (by rw [he]; exact hn) e' hok).1

theorem c2_forest_preservation_witness :
    ValidForest exGraph ∧
    ValidForest (find_root exGraph [2, 10, 7] true PCType.full_pc) :=
  ⟨by decide, (c2_forest_preservation exGraph (by decide)).1
    [2, 10, 7] true PCType.full_pc (by decide)⟩

/-- Plain `find_root` does mutate: querying `[10]` on the docstring
forest ends with `id[10] = 3` (its root) where `8` stood before. -/
theorem c3_plain_lookup_writes :
    ValidForest exGraph ∧
    (∀ v ∈ [10], v < exGraph.length) ∧
    root_plain exGraph [10] = [3] ∧
    find_root exGraph [10] false PCType.path_halving ≠ exGraph := by
  decide

/-- C3 (amended): with `path_compression=False` the root values are
computed without following any compressed link — `_root` returns exactly
the roots — but the public `find_root` then writes those roots over the
queried positions (`self.id_updated[elements_to_test] = roots`), so the
ParentMapping is not left unchanged.  Entries outside the queried batch
keep their parent, and no vertex changes root. -/
theorem c3_plain_lookup_frame (s els : List Nat) (mode : PCType)
    (hs : ValidForest s) (hv : ∀ v ∈ els, v < s.length) :
    root_plain s els = els.map (rootOf s) ∧
    find_root s els false mode = scatter s els (els.map (rootOf s)) ∧
    (∀ x, x ∉ els → par (find_root s els false mode) x = par s x) ∧
    Pres s (find_root s els false mode) := by
  refine ⟨root_plain_spec s hs els hv, find_root_plain_eq s els mode hs hv,
    ?_, find_root_pres s els false mode hs hv⟩
  intro x hx
  rw [find_root_plain_eq s els mode hs hv]
  exact scatter_par_not_mem s els (els.map (rootOf s)) x hx

theorem c3_plain_lookup_frame_witness :
    ValidForest exGraph ∧
    root_plain exGraph [2, 10, 7] = [2, 10, 7].map (rootOf exGraph) :=
  ⟨by decide, (c3_plain_lookup_frame exGraph [2, 10, 7]
    PCType.path_halving (by decide) (by decide)).1⟩

/-- The per-position union postcondition fails on batches: uniting
`[1,2]` with `[7,10]` scatters both main roots onto the shared minor
root 0, the second write wins, and afterwards vertex 1 has root 3 while
vertex 7 keeps root 7. -/
theorem c4_batch_union_losing_write :
    ValidForest exGraph ∧
    (∀ v ∈ [1, 2], v < exGraph.length) ∧
    (∀ v ∈ [7, 10], v < exGraph.length) ∧
    rootOf (build_quick_union exGraph [1, 2] [7, 10] false
      PCType.path_halving) 1
      ≠ rootOf (build_quick_union exGraph [1, 2] [7, 10] false
        PCType.path_halving) 7 := by
  decide

/-- C4 (amended): for a single pair — the shape `union(a, b)` of the
spec sentence — the postcondition holds with any compression flag and
mode: after the call both arguments have the same root, and likewise
after any weighted union that completes.  For longer batches a repeated
minor root loses all but the last write and the postcondition can
fail, as the counterexample above shows. -/
theorem c4_union_postcondition (s : List Nat) (hs : ValidForest s)
    (a b : Nat) (ha : a < s.length) (hb : b < s.length)
    (pc : Bool) (mode : PCType) :
    rootOf (build_quick_union s [a] [b] pc mode) a
      = rootOf (build_quick_union s [a] [b] pc mode) b ∧
    ValidForest (build_quick_union s [a] [b] pc mode) ∧
    (∀ e : UFState, e.id = s → ∀ e',
      build_weighted_quick_union e a b pc mode = Except.ok e' →
      rootOf e'.id a = rootOf e'.id b) := by
  obtain ⟨hval, hlen, hroot⟩ := union_single_pair s a b pc mode hs ha hb
  refine ⟨hroot, hval, ?_⟩
  intro e he e' hok
  exact (build_weighted_ok e a b pc mode (by rw [he]; exact hs)
    (by rw [he]; exact ha) (by rw [he]; exact hb) e' hok).2.2

theorem c4_union_postcondition_witness :
    ValidForest exGraph ∧
    rootOf (build_quick_union exGraph [2] [7] true PCType.path_halving) 2
      = rootOf (build_quick_union exGraph [2] [7] true
        PCType.path_halving) 7 :=
  ⟨by decide, (c4_union_postcondition exGraph (by decide) 2 7 (by decide)
    (by decide) true PCType.path_halving).1⟩

/-- C5: all three root-find variants return the same root ids on any
valid forest and in-range batch; they differ only in the ParentMapping
they leave behind. -/
theorem c5_root_identity_across_modes (s vs : List Nat)
    (hs : ValidForest s) (hv : ∀ v ∈ vs, v < s.length) :
    root_plain s vs = vs.map (rootOf s) ∧
    (root_path_halving s vs).2 = root_plain s vs ∧
    (root_full_pc s vs).2 = root_plain s vs ∧
    (∀ mode, (root_path_compression s vs mode).2 = root_plain s vs) := by
  have h0 := root_plain_spec s hs vs hv
  have h1 := (root_path_halving_spec s vs hs hv).1
  have h2 := (root_full_pc_spec s vs hs hv).1
  refine ⟨h0, by rw [h1, h0], by rw [h2, h0], ?_⟩
  intro mode
  rw [(root_path_compression_spec s vs mode hs hv).1, h0]

theorem c5_root_identity_witness :
    ValidForest exGraph ∧
    (root_full_pc exGraph [2, 10, 7]).2 = root_plain exGraph [2, 10, 7] :=
  ⟨by decide, (c5_root_identity_across_modes exGraph [2, 10, 7]
    (by decide) (by decide)).2.2.1⟩

/-- C6: full-compression root lookup is idempotent — repeated on the
same ids it returns the same roots and leaves every entry of the
ParentMapping exactly as the first call left it. -/
theorem c6_full_compression_idempotent (s vs : List Nat)
    (hs : ValidForest s) (hv : ∀ v ∈ vs, v < s.length) :
    (root_full_pc (root_full_pc s vs).1 vs).2 = (root_full_pc s vs).2 ∧
    (root_full_pc (root_full_pc s vs).1 vs).1 = (root_full_pc s vs).1 :=
  root_full_pc_idem s vs hs hv

theorem c6_full_compression_idempotent_witness :
    ValidForest exGraph ∧
    (root_full_pc (root_full_pc exGraph [2, 10, 7]).1 [2, 10, 7]).1
      = (root_full_pc exGraph [2, 10, 7]).1 :=
  ⟨by decide, (c6_full_compression_idempotent exGraph [2, 10, 7]
    (by decide) (by decide)).2⟩

/-- With compression on, a union of already-united ids is not a no-op:
vertices 10 and 8 share root 3, yet the path-halving lookups inside
`build_quick_union` rewrite their parent links. -/
theorem c7_short_circuit_still_compresses :
    ValidForest exGraph ∧
    [10].map (rootOf exGraph) = [8].map (rootOf exGraph) ∧
    build_quick_union exGraph [10] [8] true PCType.path_halving
      ≠ exGraph := by
  decide

/-- C7 (amended): when every corresponding pair already shares a root
the union step writes nothing — the result is exactly the state the two
root lookups left, which keeps the forest, its length and every root —
and with `path_compression=False` the call is a complete no-op. -/
theorem c7_union_short_circuit (s minor main : List Nat) (pc : Bool)
    (mode : PCType) (hs : ValidForest s)
    (hm : ∀ v ∈ minor, v < s.length) (hn : ∀ v ∈ main, v < s.length)
    (hshare : minor.map (rootOf s) = main.map (rootOf s)) :
    build_quick_union s minor main pc mode
      = (unionRoots s minor main pc mode).1 ∧
    Pres s (build_quick_union s minor main pc mode) ∧
    build_quick_union s minor main false mode = s := by
  obtain ⟨h1, h2⟩ := union_short_circuit s minor main pc mode hs hm hn hshare
  refine ⟨h1, ?_, h2⟩
  rw [h1]
  exact (unionRoots_spec s minor main pc mode hs hm hn).2.2

theorem c7_union_short_circuit_witness :
    ValidForest exGraph ∧
    build_quick_union exGraph [10] [8] false PCType.path_halving
      = exGraph :=
  ⟨by decide, (c7_union_short_circuit exGraph [10] [8] true
    PCType.path_halving (by decide) (by decide) (by decide)
    (by decide)).2.2⟩

/-- A negative id inside `[-N, 0)` is not rejected: `_root(-1)` on the
11-vertex docstring forest wraps to vertex 10 and returns its root 3. -/
theorem c8_negative_id_wraps :
    ValidForest exGraph ∧
    rootE exGraph (exGraph.length + 1) (-1) = Except.ok 3 := by
  constructor
  · decide
  · rfl

/-- C8 (amended): `_root` rejects with `IndexError` exactly the ids
outside `[-N, N)`: ids in `[0, N)` are looked up directly, ids in
`[-N, 0)` wrap around numpy-style to `N + i` and return that vertex's
root, and the batch loop completes on in-window batches while raising
as soon as one id falls outside the window. -/
theorem c8_out_of_range (s : List Nat) (hs : ValidForest s) :
    (∀ v : Int, -(s.length : Int) ≤ v ∧ v < (s.length : Int) →
      rootE s (s.length + 1) v
        = Except.ok ((rootOf s (npWrap s v) : Nat) : Int)) ∧
    (∀ v : Int, v < -(s.length : Int) ∨ (s.length : Int) ≤ v →
      rootE s (s.length + 1) v = Except.error UFErr.idxErr) ∧
    (∀ (f : Nat) (vs : List Int),
      (∀ i ∈ vs, -(s.length : Int) ≤ i ∧ i < (s.length : Int)) →
      ∃ rs, rootLoopE s f vs = Except.ok rs) ∧
    (∀ (f : Nat) (vs : List Int), 1 ≤ f →
      (∃ i ∈ vs, i < -(s.length : Int) ∨ (s.length : Int) ≤ i) →
      ∃ err, rootLoopE s f vs = Except.error err) :=
  ⟨fun v hv => rootE_ok s hs v hv,
   fun v hv => rootE_err s v hv,
   fun f vs hvs => rootLoopE_ok s hs.1 f vs hvs,
   fun f vs hf hbad => rootLoopE_err s f vs hf hbad⟩

theorem c8_out_of_range_witness :
    ValidForest exGraph ∧
    rootE exGraph (exGraph.length + 1) 20 = Except.error UFErr.idxErr :=
  ⟨by decide, (c8_out_of_range exGraph (by decide)).2.1 20 (by decide)⟩

/-- On a one-directional adjacency list the labeler's iff fails: with
`adj = [[],[0]]` vertex 0 is reachable from vertex 1, yet they end with
labels 0 and 1. -/
theorem c9_directed_adjacency_splits_component :
    Reach [[], [0]] 1 0 ∧
    (dfs_labels [[], [0]]).getD 1 0 ≠ (dfs_labels [[], [0]]).getD 0 0 :=
  ⟨Reach.step (Reach.refl 1) (by decide), by decide⟩

/-- C9 (amended): on an adjacency list whose neighbor ids are in range
and whose edges are stored in both directions (the storage discipline
the design requires), the labeler assigns every vertex exactly one
label in `[0, K)` with every such label in use — `K` therefore counts
the components — and two vertices share a label exactly when one is
reachable from the other.  Without the reciprocity requirement the iff
direction from reachability fails, as the counterexample above
shows. -/
theorem c9_labeler_partition (adj : List (List Nat)) (hadj : AdjOk adj)
    (hsym : SymmAdj adj) :
    (dfs_labels adj).length = adj.length ∧
    (∀ v < adj.length, 0 ≤ (dfs_labels adj).getD v 0 ∧
      (dfs_labels adj).getD v 0 < dfs_count adj) ∧
    (∀ c : Int, 0 ≤ c → c < dfs_count adj →
      ∃ v, v < adj.length ∧ (dfs_labels adj).getD v 0 = c) ∧
    (∀ u < adj.length, ∀ v < adj.length,
      ((dfs_labels adj).getD u 0 = (dfs_labels adj).getD v 0 ↔
        Reach adj u v)) :=
  dfs_partition adj hadj hsym

theorem c9_labeler_partition_witness :
    AdjOk [[1], [0], []] ∧ SymmAdj [[1], [0], []] ∧
    ((dfs_labels [[1], [0], []]).getD 0 0
        = (dfs_labels [[1], [0], []]).getD 1 0 ↔
      Reach [[1], [0], []] 0 1) :=
  ⟨by decide, by decide,
    (c9_labeler_partition [[1], [0], []] (by decide) (by decide)).2.2.2
      0 (by decide) 1 (by decide)⟩

/-- A numpy integer scalar is a scalar integral id, yet the gate
`type(x) != int` rejects it before anything else runs. -/
theorem c10_np_scalar_rejected :
    isScalarIntegral (PyArg.npInt 2) = true ∧
    build_weighted_quick_union_py
        { id := exGraph
          roots := none
          size := none } (PyArg.npInt 2) (PyArg.pyInt 7) true
        PCType.path_halving
      = Except.error UFErr.invalidArg :=
  ⟨rfl, rfl⟩

/-- C10 (amended): `weighted_union` raises the invalid-argument
condition exactly when an argument is not a built-in Python `int` —
`type(x) != int` — not when it is not scalar-integral: numpy integer
scalars (every element read out of an integer array) are scalar
integral ids yet are rejected, as the counterexample above shows.
Arguments
that pass the gate never reach the invalid-argument error: later
failures are index, type or attribute errors. -/
theorem c10_invalid_argument_iff (e : UFState) (minor main : PyArg)
    (pc : Bool) (mode : PCType) :
    build_weighted_quick_union_py e minor main pc mode
        = Except.error UFErr.invalidArg ↔
      ¬ (isTypeInt minor = true ∧ isTypeInt main = true) := by
  cases minor with
  | pyInt a =>
    cases main with
    | pyInt b =>
      constructor
      · intro h
        exfalso
        have hgate : build_weighted_quick_union_py e (PyArg.pyInt a)
            (PyArg.pyInt b) pc mode
            = (match wrapIdx e.id.length a with
              | Except.error err => Except.error err
              | Except.ok m =>
                match wrapIdx e.id.length b with
                | Except.error err => Except.error err
                | Except.ok n =>
                  build_weighted_quick_union e m n pc mode) := rfl
        rw [hgate] at h
        split at h
        · rename_i err herr
          rw [wrapIdx_error _ _ _ herr] at h
          cases h
        · split at h
          · rename_i err herr
            rw [wrapIdx_error _ _ _ herr] at h
            cases h
          · exact build_weighted_no_invalidArg e _ _ pc mode h
      · intro h
        exact absurd ⟨rfl, rfl⟩ h
    | npInt b =>
      constructor
      · intro _ hc
        cases hc.2
      · intro _
        rfl
    | npArray l =>
      constructor
      · intro _ hc
        cases hc.2
      · intro _
        rfl
  | npInt a =>
    constructor
    · intro _ hc
      cases hc.1
    · intro _
      rfl
  | npArray l =>
    constructor
    · intro _ hc
      cases hc.1
    · intro _
      rfl
